import Mathlib

/-
Verification development for the Zodika timeline playback engine
(src/engine/core.js, src/engine/loader.js, scripts/app.js).

The JavaScript source is shallowly embedded below:
* JS numbers are modelled by `JsNum` (finite rationals plus NaN and the two
  infinities) where the special values matter (the manifest normalizers), and
  by plain rationals in the scheduler model, whose claims only concern
  schedules of finite numeric times.
* Fallible code (thrown errors, undefined property accesses) is modelled with
  `Except`/`Option`.
* The mutable playback state of `ZdkCore` is modelled by explicit state
  records threaded through the embedded operations.
-/

deriving instance DecidableEq for Except

/-! ## JS numbers

`JsNum` models the IEEE double values that can appear in a manifest field:
a finite value (modelled as a rational), `NaN`, `Infinity`, `-Infinity`.
Only the operations the embedded code uses are defined. -/

inductive JsNum where
  | nan
  | posInf
  | negInf
  | fin (q : ℚ)
deriving DecidableEq, Repr

namespace JsNum

/-- JS truthiness of a number: `0`, `-0` and `NaN` are falsy. -/
def truthy : JsNum → Bool
  | .nan => false
  | .fin q => q != 0
  | _ => true

/-- `isFinite x` (JS global): false on `NaN` and the infinities. -/
def isFin : JsNum → Bool
  | .fin _ => true
  | _ => false

/-- `Math.max`: returns `NaN` if either argument is `NaN`. -/
def jsMax : JsNum → JsNum → JsNum
  | .nan, _ => .nan
  | _, .nan => .nan
  | .posInf, _ => .posInf
  | _, .posInf => .posInf
  | .negInf, b => b
  | a, .negInf => a
  | .fin x, .fin y => .fin (max x y)

/-- JS `+` on numbers: `NaN` is absorbing, opposite infinities give `NaN`. -/
def jsAdd : JsNum → JsNum → JsNum
  | .nan, _ => .nan
  | _, .nan => .nan
  | .posInf, .negInf => .nan
  | .negInf, .posInf => .nan
  | .posInf, _ => .posInf
  | _, .posInf => .posInf
  | .negInf, _ => .negInf
  | _, .negInf => .negInf
  | .fin x, .fin y => .fin (x + y)

/-- JS `<=` on numbers: any comparison with `NaN` is false. -/
def jsLe : JsNum → JsNum → Bool
  | .nan, _ => false
  | _, .nan => false
  | .negInf, _ => true
  | _, .negInf => false
  | _, .posInf => true
  | .posInf, _ => false
  | .fin x, .fin y => x ≤ y

end JsNum

/-- `v || 0` applied to an optional number field (`undefined` is falsy, and
`Number(0) = 0`, `Number(n) = n` for a number `n`, so the surrounding
`Number(...)` coercion in the source is the identity on this domain). -/
def jsOrZero : Option JsNum → JsNum
  | none => .fin 0
  | some n => if n.truthy then n else .fin 0

/-! ## Loader manifest normalizer (src/engine/loader.js, `normalizeManifest`)

Raw manifest fields that can be absent are `Option`-valued; `scenes = none`
models a missing or non-array `scenes` field.  Media URL resolution
(`new URL(src, base)`) is an external collaborator concern (spec §6) and is
not part of this model; the `t` field is passed through untouched by the
loader, exactly as in the source (the loader never reads or writes `t`). -/

structure LRawScene where
  t : Option JsNum
  d : Option JsNum
deriving DecidableEq, Repr

structure LRawManifest where
  scenes : Option (List LRawScene)
  duration : Option JsNum
  theme : Option String
deriving DecidableEq, Repr

/-- A loader-normalized scene: `d` has been clamped, `t` is untouched. -/
structure LScene where
  t : Option JsNum
  d : JsNum
deriving DecidableEq, Repr

structure LManifest where
  scenes : List LScene
  duration : JsNum
  theme : String
deriving DecidableEq, Repr

/-- The duration assignment
`scene.d = Math.max(0.1, Number(scene.d || 0));`. -/
def clampedDur (d : Option JsNum) : JsNum :=
  JsNum.jsMax (.fin (1/10)) (jsOrZero d)

/-- One scene of the loader `normalizeManifest`: the duration assignment
followed by `if (!scene.d || !isFinite(scene.d)) throw ...`. -/
def loaderNormScene (s : LRawScene) : Except String LScene :=
  if !(clampedDur s.d).truthy || !(clampedDur s.d).isFin then
    .error "Manifest scene requires positive duration d"
  else
    .ok { t := s.t, d := clampedDur s.d }

/-- `m.scenes.map(...)`: JS `map` with a thrown error aborts at the first
failing scene. -/
def loaderNormScenes : List LRawScene → Except String (List LScene)
  | [] => .ok []
  | s :: rest =>
    match loaderNormScene s with
    | .error e => .error e
    | .ok o =>
      match loaderNormScenes rest with
      | .error e => .error e
      | .ok os => .ok (o :: os)

/-- `sumDurations(scenes)`: `reduce((acc, s) => acc + (Number(s?.d) || 0), 0)`. -/
def sumDurations (l : List LScene) : JsNum :=
  l.foldl (fun acc s => JsNum.jsAdd acc (jsOrZero (some s.d))) (.fin 0)

/-- Loader `normalizeManifest(raw, manifestUrl)` (minus URL resolution):
defaults a non-array `scenes` to `[]`, normalizes each scene, coerces the
theme, and computes `m.duration = Number(m.duration) || sumDurations(...)`
(`Number(undefined)` is `NaN`, which is falsy). -/
def normalizeManifest (m : LRawManifest) : Except String LManifest :=
  let scenes := m.scenes.getD []
  match loaderNormScenes scenes with
  | .error e => .error e
  | .ok out =>
    let dur :=
      match m.duration with
      | some n => if n.truthy then n else sumDurations out
      | none => sumDurations out
    .ok { scenes := out
          duration := dur
          theme := if m.theme = some "dark" then "dark" else "light" }

/-- `loadProject` validates `Array.isArray(raw.scenes)` before calling
`normalizeManifest` (loader.js lines 81-83). -/
def loadProjectValidate (m : LRawManifest) : Except String LManifest :=
  match m.scenes with
  | none => .error "Manifest missing scenes array"
  | some _ => normalizeManifest m

/-- Whether an embedded computation threw. -/
def isError {α : Type} : Except String α → Bool
  | .error _ => true
  | .ok _ => false

/-- The scene list of a successful normalization (`[]` on error). -/
def okScenes : Except String LManifest → List LScene
  | .ok m => m.scenes
  | .error _ => []

/-! ## Core manifest normalizer (src/engine/core.js, `#normalizeManifest`)

The constructor requires `Array.isArray(manifest.scenes)`; the normalizer
then auto-chains missing `t` values with a running cursor.  (The source
mutates a `structuredClone` of the manifest; the heap model further below
covers the mutation/aliasing aspect, this value-level model covers the
computed schedule.) -/

structure CRawScene where
  t : Option JsNum
  d : Option JsNum
deriving DecidableEq, Repr

/-- A core-normalized scene: both times are numbers. -/
structure CScene where
  t : JsNum
  d : JsNum
deriving DecidableEq, Repr

/-- The `m.scenes.forEach` body of `#normalizeManifest`:
`if (typeof s.d !== "number" || s.d <= 0) throw ...;
 if (typeof s.t !== "number") s.t = cursor;
 cursor = s.t + s.d;` -/
def coreNormScenes (cursor : JsNum) : List CRawScene → Except String (List CScene)
  | [] => .ok []
  | s :: rest =>
    match s.d with
    | none => .error "Manifest: scene missing positive duration d"
    | some d =>
      if d.jsLe (.fin 0) then
        .error "Manifest: scene missing positive duration d"
      else
        let t := s.t.getD cursor
        match coreNormScenes (JsNum.jsAdd t d) rest with
        | .error e => .error e
        | .ok rest' => .ok (⟨t, d⟩ :: rest')

/-- The `ZdkCore` constructor check plus `#normalizeManifest`:
`scenes = none` models a missing or non-array `manifest.scenes`. -/
def coreNormalizeManifest (scenes : Option (List CRawScene)) :
    Except String (List CScene) :=
  match scenes with
  | none => .error "ZdkCore: manifest.scenes is required"
  | some l => coreNormScenes (.fin 0) l

/-- Sum (JS `+`) of the durations of the scenes before index `i` of a
normalized scene list; the quantity claim C5 predicts for auto-chained
start times. -/
def sumPriorDurations (l : List CScene) (i : ℕ) : JsNum :=
  (l.take i).foldl (fun acc s => JsNum.jsAdd acc s.d) (.fin 0)

/-- In `app.js` the loader-normalized manifest object is handed directly to
the `ZdkCore` constructor; this maps a loader-normalized scene to the shape
the core normalizer reads from it (`d` is now a number, `t` untouched). -/
def loaderToCoreRaw (s : LScene) : CRawScene :=
  { t := s.t, d := some s.d }

/-! ## Scheduler model (src/engine/core.js, playback state and control loop)

The scheduler claims (C1, C2, C4, C8, C10) concern schedules whose times are
ordinary finite numbers, so times are rationals here.  Presentation-only
event fields (`role`, `html`, `effects`, `x`, `y`) do not influence any
claimed behavior and are omitted; `at` is called `atS` (`at` is reserved). -/

structure TextEvent where
  atS : ℚ
deriving DecidableEq, Repr

structure CalloutEvent where
  atS : ℚ
deriving DecidableEq, Repr

structure Scene where
  t : ℚ
  d : ℚ
  text : List TextEvent
  callouts : List CalloutEvent
deriving DecidableEq, Repr

structure Manifest where
  scenes : List Scene
deriving DecidableEq, Repr

/-- Trigger keys.  The source stores them as strings: a text event of scene
`i` at position `j` uses the string `` i#j `` (template `${index}#${idx}`),
a callout event uses `` i#cj `` (template `${index}#c${idx}`).  Decimal
digit strings never start with the letter `c` and contain no `#`, so the
two string families are disjoint and each is injective in `(i, j)`; the two
constructors below model exactly these two string shapes. -/
inductive TKey where
  | text (scene idx : ℕ)
  | callout (scene idx : ℕ)
deriving DecidableEq, Repr

/-- `${scene}#${idx}` — the string shape used by the text-event keys, and
(also) by both `delete` calls in `#enterScene`. -/
def textKey (scene idx : ℕ) : TKey := .text scene idx

/-- `${scene}#c${idx}` — the string shape used by the callout keys in
`#tickScene`. -/
def calloutKey (scene idx : ℕ) : TKey := .callout scene idx

/-- The mutable playback state of a `ZdkCore` instance.

* `running`, `activeIndex` mirror `_running`, `_activeIndex`;
* `mounted` is the key set of `_sceneNodes` (scene index → DOM node);
* `firedText`, `firedCallout` mirror the two `Set`s of fired keys;
* `visible` holds the keys of sub-event elements currently carrying the
  `is-in` class (the revealed/visible state);
* `revealLog` is an observation: every reveal request (`classList.add`
  performed on firing) is appended, so multiplicities count requests. -/
structure CoreState where
  running : Bool
  activeIndex : Int
  mounted : List Int
  firedText : List TKey
  firedCallout : List TKey
  visible : List TKey
  revealLog : List TKey
deriving DecidableEq, Repr

/-- State right after `start()` resets the playback bookkeeping
(`_running = true`, `_activeIndex = -1`, fired sets cleared). -/
def startState : CoreState :=
  { running := true, activeIndex := -1, mounted := []
    firedText := [], firedCallout := [], visible := [], revealLog := [] }

/-- `#findSceneIndexAt` loop body: first `i` with `t >= s.t && t < s.t + s.d`. -/
def findSceneIndexAtAux (t : ℚ) : ℕ → List Scene → Int
  | _, [] => -1
  | i, s :: rest =>
    if s.t ≤ t ∧ t < s.t + s.d then (i : Int) else findSceneIndexAtAux t (i + 1) rest

/-- `#findSceneIndexAt(t)`: index of the scene active at time `t`, or `-1`. -/
def findSceneIndexAt (m : Manifest) (t : ℚ) : Int :=
  findSceneIndexAtAux t 0 m.scenes

/-- Specification-side predicate (spec §8): scene `s` is active at `t` when
`s.startTime ≤ t < s.startTime + s.duration`. -/
def containsAt (s : Scene) (t : ℚ) : Bool :=
  decide (s.t ≤ t ∧ t < s.t + s.d)

/-- Specification-side index function, written from the spec sentence of
claim C4: the lowest index whose half-open interval contains `t`, or `-1`
when no interval does. -/
def specActiveSceneIndexAt (m : Manifest) (t : ℚ) : Int :=
  match m.scenes.findIdx? (fun s => containsAt s t) with
  | some i => (i : Int)
  | none => -1

/-- `#ensureSceneMounted(index, finalize)`.  Returns `none` when the scene
index is out of range (the source then dereferences `undefined` and throws
a `TypeError`).  If the index is already in `_sceneNodes`, the existing
node is returned unchanged — including when `finalize` is set.  Otherwise
the scene is mounted (elements start hidden), and when `finalize` is set
every sub-event element immediately receives `is-in` (revealed) without
the fired sets being touched. -/
def ensureSceneMounted (m : Manifest) (index : Int) (finalize : Bool)
    (st : CoreState) : Option CoreState :=
  if index ∈ st.mounted then some st
  else
    match (if 0 ≤ index then m.scenes[index.toNat]? else none) with
    | none => none
    | some scene =>
      let i := index.toNat
      let tks := (List.range scene.text.length).map (textKey i)
      let cks := (List.range scene.callouts.length).map (calloutKey i)
      -- freshly created elements are hidden (`opacity 0`, no `is-in`)
      let st := { st with mounted := index :: st.mounted
                          visible := st.visible.filter (fun k => k ∉ tks ++ cks) }
      if finalize then
        some { st with visible := st.visible ++ tks ++ cks }
      else
        some st

/-- `#enterScene(index)`: returns unchanged if no node is mounted for the
index.  Otherwise deletes this scene's keys from both fired sets — the
source builds the string `${index}#${idx}` for BOTH deletes, so the keys
removed from `_firedCallout` are text-shaped and never match the stored
callout keys `${index}#c${idx}` — and removes `is-in` from every sub-event
element (transition/Ken-Burns class changes carry no tracked state). -/
def enterScene (m : Manifest) (index : Int) (st : CoreState) : CoreState :=
  if index ∉ st.mounted then st
  else
    match (if 0 ≤ index then m.scenes[index.toNat]? else none) with
    | none => st
    | some scene =>
      let i := index.toNat
      let tdel := (List.range scene.text.length).map (textKey i)
      let cdel := (List.range scene.callouts.length).map (textKey i)
      let tks := (List.range scene.text.length).map (textKey i)
      let cks := (List.range scene.callouts.length).map (calloutKey i)
      { st with firedText := st.firedText.filter (fun k => k ∉ tdel)
                firedCallout := st.firedCallout.filter (fun k => k ∉ cdel)
                visible := st.visible.filter (fun k => k ∉ tks ++ cks) }

/-- `exitScene(index)` (a private method in the source): applies exit transition classes (untracked) and
schedules node removal via a 900ms timeout.  The deferred removal is a
separate event, not part of the synchronous exit; see `removeSceneNode`. -/
def exitScene (_m : Manifest) (_index : Int) (st : CoreState) : CoreState :=
  st

/-- The deferred `setTimeout` body of the private exitScene method: removes the node and
drops the `_sceneNodes` entry (idempotent if already removed). -/
def removeSceneNode (index : Int) (st : CoreState) : CoreState :=
  { st with mounted := st.mounted.filter (fun i => i ≠ index) }

/-- One reveal pass of `#tickScene` over an indexed event list: for each
event `(idx, at)` not yet in the fired list with `tLocal >= at`, adds
`is-in` (recorded in `vis` and appended to the reveal log) and adds the key
to the fired list.  `mk` builds the key string for the pass
(`textKey index` or `calloutKey index`). -/
def fireEvents (mk : ℕ → TKey) (tLocal : ℚ) :
    List (ℕ × ℚ) → List TKey → List TKey → List TKey →
    List TKey × List TKey × List TKey
  | [], fired, vis, log => (fired, vis, log)
  | (i, a) :: rest, fired, vis, log =>
    if mk i ∉ fired ∧ tLocal ≥ a then
      fireEvents mk tLocal rest (mk i :: fired) (mk i :: vis) (log ++ [mk i])
    else
      fireEvents mk tLocal rest fired vis log

/-- `forEach((block, i) => ...)`: the events of a scene paired with their
positions. -/
def withIdx : ℕ → List ℚ → List (ℕ × ℚ)
  | _, [] => []
  | i, a :: rest => (i, a) :: withIdx (i + 1) rest

/-- Offsets (`at`) of a scene's text events. -/
def textOffsets (s : Scene) : List ℚ := s.text.map (·.atS)

/-- Offsets (`at`) of a scene's callout events. -/
def calloutOffsets (s : Scene) : List ℚ := s.callouts.map (·.atS)

/-- `#tickScene(index, now)`: computes `tLocal = now - s.t`, returns
unchanged when no node is mounted, otherwise runs the text pass then the
callout pass.  The out-of-range branch returns the state unchanged; the
loop only calls this with an index produced by `#findSceneIndexAt`, which
is always in range (an out-of-range access would throw on `s.t`). -/
def tickScene (m : Manifest) (index : ℕ) (now : ℚ) (st : CoreState) : CoreState :=
  match m.scenes[index]? with
  | none => st
  | some s =>
    let tLocal := now - s.t
    if (index : Int) ∉ st.mounted then st
    else
      let r₁ :=
        fireEvents (textKey index) tLocal (withIdx 0 (textOffsets s))
          st.firedText st.visible st.revealLog
      let r₂ :=
        fireEvents (calloutKey index) tLocal (withIdx 0 (calloutOffsets s))
          st.firedCallout r₁.2.1 r₁.2.2
      { st with firedText := r₁.1, firedCallout := r₂.1
                visible := r₂.2.1, revealLog := r₂.2.2 }

/-- `#onSceneChange(prevIdx, nextIdx)`: exit the previous scene, then mount
and enter the next.  The call is `async` and not awaited by the loop; a
`TypeError` inside it would surface as an unhandled rejection and leave the
loop state unaffected, which the `none` fallback mirrors (the loop only
passes indices produced by `#findSceneIndexAt`, which are in range). -/
def onSceneChange (m : Manifest) (prev next : Int) (st : CoreState) : CoreState :=
  let st := if 0 ≤ prev then exitScene m prev st else st
  if 0 ≤ next then
    match ensureSceneMounted m next false st with
    | none => st
    | some st₁ => enterScene m next st₁
  else st

/-- `stop(toEnd)`: cancels the animation frame, clears `_running`, and when
`toEnd` is set force-finalizes the terminal scene via
`#ensureSceneMounted(scenes.length - 1, true)`. -/
def stop (m : Manifest) (toEnd : Bool) (st : CoreState) : Option CoreState :=
  let st := { st with running := false }
  if toEnd then ensureSceneMounted m ((m.scenes.length : Int) - 1) true st
  else some st

/-- One iteration of the `start()` control loop at clock time `now`
(seconds).  Returns `some` of the next state, or `none` when the iteration
throws: the stop-condition reads
`this.manifest.scenes[this.manifest.scenes.length - 1]` unguarded, so with
an empty scene list `last` is `undefined` and `last.t` throws a
`TypeError`.  When past the end of the last scene plus the 0.25s grace the
loop calls `stop(true)` and returns without scheduling another frame. -/
def loopIter (m : Manifest) (st : CoreState) (now : ℚ) : Option CoreState :=
  if !st.running then some st
  else
    let idx := findSceneIndexAt m now
    let st :=
      if idx ≠ st.activeIndex then
        { onSceneChange m st.activeIndex idx st with activeIndex := idx }
      else st
    let st := if 0 ≤ idx then tickScene m idx.toNat now st else st
    match m.scenes.getLast? with
    | none => none
    | some last =>
      if now > last.t + last.d + 1/4 then stop m true st else some st

/-- Repeated `#tickScene` at a list of clock times: the loop body restricted
to a phase where the active scene does not change (one scene entry). -/
def runTicks (m : Manifest) (index : ℕ) : List ℚ → CoreState → CoreState
  | [], st => st
  | t :: ts, st => runTicks m index ts (tickScene m index t st)

/-- Whether some tick time in `ts` has local offset (relative to scene start
`start`) at least `a`. -/
def hitsAt (ts : List ℚ) (start a : ℚ) : Bool :=
  ts.any (fun t => decide (t - start ≥ a))

/-! ## Preload pipeline worker pool (src/engine/loader.js, `preloadImages`)

`preloadImages` keeps a FIFO `queue` of pending URLs and an `active` count,
and wraps everything in one `Promise` whose executor only ever calls
`resolve` (each per-URL `preloadImage` rejection is swallowed by `.catch`
before the `.finally` bookkeeping runs), so the aggregate signal has no
rejection path at all.  The single-threaded promise semantics make every
`next()` call and every task settlement an atomic step; a run of the
pipeline is the initial `next()` followed by one settle step per started
task, in whatever order the tasks happen to settle.

`started`, `settledCount`, `failures` and `doneSignals` are observations:
`started` records the order in which URLs are handed to `preloadImage`,
`settledCount` mirrors the `resolved` counter of the source, `failures`
counts tasks whose `.catch` handler ran, `doneSignals` counts invocations
of the outer `resolve`. -/

structure Pool where
  queue : List ℕ
  active : ℕ
  started : List ℕ
  settledCount : ℕ
  failures : ℕ
  resolvedFlag : Bool
  doneSignals : ℕ
deriving DecidableEq, Repr

/-- The `while (active < concurrency && queue.length)` dispatch loop of
`next()`, acting on the `(queue, active, started)` components: shifts URLs
off the front of the queue while slots are free. -/
def fillAux (c : ℕ) : List ℕ → ℕ → List ℕ → List ℕ × ℕ × List ℕ
  | [], active, started => ([], active, started)
  | u :: rest, active, started =>
    if active < c then fillAux c rest (active + 1) (started ++ [u])
    else (u :: rest, active, started)

/-- The dispatch loop on the full pool state. -/
def fill (c : ℕ) (s : Pool) : Pool :=
  match fillAux c s.queue s.active s.started with
  | (q, a, st) => { s with queue := q, active := a, started := st }

/-- `next()`: `if (!queue.length && active === 0) return resolve(true);`
then the dispatch loop. -/
def nextStep (c : ℕ) (s : Pool) : Pool :=
  if s.queue = [] ∧ s.active = 0 then
    { s with resolvedFlag := true, doneSignals := s.doneSignals + 1 }
  else fill c s

/-- The `.finally` handler of one settled task (`ok` tells whether the
`.catch` branch ran first): `active--; resolved++; next();`. -/
def settleStep (c : ℕ) (ok : Bool) (s : Pool) : Pool :=
  nextStep c { s with active := s.active - 1
                      settledCount := s.settledCount + 1
                      failures := if ok then s.failures else s.failures + 1 }

/-- Pipeline state before the initial `next()` call. -/
def initPool (urls : List ℕ) : Pool :=
  { queue := urls, active := 0, started := [], settledCount := 0
    failures := 0, resolvedFlag := false, doneSignals := 0 }

/-- A sequence of task settlements applied in order. -/
def settleRun (c : ℕ) (oks : List Bool) (s : Pool) : Pool :=
  oks.foldl (fun s ok => settleStep c ok s) s

/-- The pipeline state after the initial `next()` and the settlements in
`oks` (one entry per settled task, `false` = that task failed and was
swallowed).  Taking `oks` of any length up to `urls.length` gives every
state the run passes through. -/
def runPool (c : ℕ) (urls : List ℕ) (oks : List Bool) : Pool :=
  settleRun c oks (nextStep c (initPool urls))

/-! ## Heap model for `structuredClone` and `#normalizeManifest` mutation

Claim C9 is about aliasing: building a Schedule must leave the caller's
manifest object graph untouched.  Objects live in an explicit heap of
numbered cells; a JS object (or array) is a cell holding an ordered field
list (for an array the fields are its elements in index order).  Field
values are primitives or references to other cells.  `structuredClone` is
modelled with a recursion fuel (manifest graphs are finite trees; fuel
exhaustion or a dangling reference yields `none`, as does a thrown
validation error — either way no result heap is produced, matching a JS
throw).  Numbers here are finite rationals: the special values play no
role in the aliasing claim. -/

inductive HVal where
  | num (q : ℚ)
  | str (s : String)
  | boolean (b : Bool)
  | undefined
  | ref (a : ℕ)
deriving DecidableEq, Repr

structure HObj where
  fields : List (String × HVal)
deriving DecidableEq, Repr

structure Heap where
  mem : List (ℕ × HObj)
  nextAddr : ℕ
deriving DecidableEq, Repr

/-- Dereference an address. -/
def heapLookup (h : Heap) (a : ℕ) : Option HObj :=
  match h.mem.find? (fun p => p.1 = a) with
  | some p => some p.2
  | none => none

/-- Overwrite the object at an (existing) address. -/
def heapWrite (h : Heap) (a : ℕ) (o : HObj) : Heap :=
  { h with mem := h.mem.map (fun p => if p.1 = a then (a, o) else p) }

/-- Allocate a fresh cell. -/
def heapAlloc (h : Heap) (o : HObj) : Heap × ℕ :=
  ({ mem := h.mem ++ [(h.nextAddr, o)], nextAddr := h.nextAddr + 1 }, h.nextAddr)

/-- Read one field of the object at `a` (`undefined` when absent — reading a
missing property of an existing object yields `undefined`, not a throw). -/
def heapGetField (h : Heap) (a : ℕ) (k : String) : Option HVal :=
  match heapLookup h a with
  | none => none
  | some o =>
    match o.fields.find? (fun p => p.1 = k) with
    | some p => some p.2
    | none => some .undefined

/-- Assign one field of the object at `a` (in place): overwrites an existing
property or appends a new one, as a JS property assignment does. -/
def heapSetField (h : Heap) (a : ℕ) (k : String) (v : HVal) : Heap :=
  match heapLookup h a with
  | none => h
  | some o =>
    if o.fields.any (fun p => p.1 = k) then
      heapWrite h a ⟨o.fields.map (fun p => if p.1 = k then (k, v) else p)⟩
    else
      heapWrite h a ⟨o.fields ++ [(k, v)]⟩

/-- Every object in the heap sits below the allocation pointer. -/
def HeapWF (h : Heap) : Prop :=
  ∀ p ∈ h.mem, p.1 < h.nextAddr

/-- `structuredClone` on a field list, left to right, cloning each value
with the mapper `f` (instantiated with `cloneV` at the next lower fuel). -/
def cloneFsAux (f : Heap → HVal → Option (Heap × HVal)) :
    Heap → List (String × HVal) → Option (Heap × List (String × HVal))
  | h, [] => some (h, [])
  | h, (k, v) :: rest =>
    match f h v with
    | none => none
    | some (h₁, v') =>
      match cloneFsAux f h₁ rest with
      | none => none
      | some (h₂, fs) => some (h₂, (k, v') :: fs)

/-- `structuredClone` on one value: primitives are copied, a reference is
replaced by a reference to a recursively cloned object (each nesting level
consumes one unit of fuel; manifest graphs are finite trees, so any fuel
at least the tree height gives the full clone). -/
def cloneV : ℕ → Heap → HVal → Option (Heap × HVal)
  | _, h, .num q => some (h, .num q)
  | _, h, .str s => some (h, .str s)
  | _, h, .boolean b => some (h, .boolean b)
  | _, h, .undefined => some (h, .undefined)
  | 0, _, .ref _ => none
  | fuel + 1, h, .ref a =>
    match heapLookup h a with
    | none => none
    | some o =>
      match cloneFsAux (cloneV fuel) h o.fields with
      | none => none
      | some (h₁, fs) =>
        match heapAlloc h₁ ⟨fs⟩ with
        | (h₂, a') => some (h₂, .ref a')

/-- The scene elements of the cloned `scenes` array object, in order: the
model represents a JS array as an object whose field list holds exactly its
elements in index order. -/
def arrayElems (o : HObj) : List HVal :=
  o.fields.map (·.2)

/-- The `m.scenes.forEach` body of `#normalizeManifest`, acting on the heap:
reads `s.d` (throw unless a positive number), reads `s.t` and assigns
`s.t = cursor` in place when it is not a number, and chains the cursor.
`none` models a thrown error (non-object scene element, bad duration). -/
def normScenesHeap (h : Heap) (cursor : ℚ) : List HVal → Option Heap
  | [] => some h
  | v :: rest =>
    match v with
    | .ref sa =>
      match heapGetField h sa "d" with
      | some (.num d) =>
        if d ≤ 0 then none
        else
          match heapGetField h sa "t" with
          | some (.num t) => normScenesHeap h (t + d) rest
          | _ => normScenesHeap (heapSetField h sa "t" (.num cursor)) (cursor + d) rest
      | _ => none
    | _ => none

/-- `#normalizeManifest(manifest)` on the heap: clones the whole manifest
graph rooted at `root`, then walks and mutates the scenes of the clone.
Returns the resulting heap together with the clone's root address. -/
def coreNormalizeHeap (fuel : ℕ) (h : Heap) (root : ℕ) : Option (Heap × ℕ) :=
  match cloneV fuel h (.ref root) with
  | some (h₁, .ref root') =>
    (match heapGetField h₁ root' "scenes" with
     | some (.ref arr) =>
       (match heapLookup h₁ arr with
        | some o =>
          (match normScenesHeap h₁ 0 (arrayElems o) with
           | some h₂ => some (h₂, root')
           | none => none)
        | none => none)
     | _ => none)
  | _ => none


/-- A scene the core normalizer rejects: duration missing (not a number) or
comparing `<= 0` under JS semantics. -/
def badDur (s : CRawScene) : Bool :=
  match s.d with
  | none => true
  | some x => x.jsLe (.fin 0)

/-- The 3-scene demo manifest of spec §8: durations `[2,3,2]`, no explicit
start times, no duration hint. -/
def demoRaw : LRawManifest :=
  ⟨some [⟨none, some (.fin 2)⟩, ⟨none, some (.fin 3)⟩, ⟨none, some (.fin 2)⟩],
    none, none⟩

/-- Concrete schedule for exercising `stop(true)`: one scene of duration 10
with a text event and a callout event at offset 5. -/
def c1Manifest : Manifest := ⟨[⟨0, 10, [⟨5⟩], [⟨5⟩]⟩]⟩

/-- Playback state after the loop tick at `t = 1`: scene 0 mounted and
active, neither sub-event fired or visible yet. -/
def c1Mounted : CoreState :=
  { running := true, activeIndex := 0, mounted := [0],
    firedText := [], firedCallout := [], visible := [], revealLog := [] }

/-- The same state after `stop(true)`. -/
def c1Stopped : CoreState := { c1Mounted with running := false }

/-- What a finalize mount produces when the scene is NOT already mounted:
both sub-events revealed. -/
def c1Fresh : CoreState :=
  { running := true, activeIndex := -1, mounted := [0],
    firedText := [], firedCallout := [],
    visible := [textKey 0 0, calloutKey 0 0], revealLog := [] }

/-- Concrete schedule for exercising scene re-entry: one scene of duration 2
with a text event and a callout event at offset 0. -/
def c2Manifest : Manifest := ⟨[⟨0, 2, [⟨0⟩], [⟨0⟩]⟩]⟩

/-- Playback state after the loop tick at `t = 0`: both sub-events fired. -/
def c2Fired : CoreState :=
  { running := true, activeIndex := 0, mounted := [0],
    firedText := [textKey 0 0], firedCallout := [calloutKey 0 0],
    visible := [calloutKey 0 0, textKey 0 0],
    revealLog := [textKey 0 0, calloutKey 0 0] }

/-- The same state after `#enterScene(0)` runs a second time: the text key
is cleared but the callout key survives (the delete used the text-shaped
string), and all `is-in` classes are removed. -/
def c2Entered : CoreState :=
  { running := true, activeIndex := 0, mounted := [0],
    firedText := [], firedCallout := [calloutKey 0 0],
    visible := [], revealLog := [textKey 0 0, calloutKey 0 0] }

/-- The state after a further tick at `t = 1` of the re-entered scene: the
text event fires again, the callout event cannot. -/
def c2Reticked : CoreState :=
  { running := true, activeIndex := 0, mounted := [0],
    firedText := [textKey 0 0], firedCallout := [calloutKey 0 0],
    visible := [textKey 0 0],
    revealLog := [textKey 0 0, calloutKey 0 0, textKey 0 0] }

/-- Event kind selector for stating per-event facts uniformly:
`false` = text events, `true` = callout events. -/
def mkKey (k : Bool) (index i : ℕ) : TKey :=
  if k then calloutKey index i else textKey index i

/-- The offsets of a scene's events of kind `k`. -/
def sceneEvOffsets (s : Scene) (k : Bool) : List ℚ :=
  if k then calloutOffsets s else textOffsets s

/-- The fired set holding keys of kind `k`. -/
def firedSetOf (st : CoreState) (k : Bool) : List TKey :=
  if k then st.firedCallout else st.firedText

/-- Heaps agree on every address below `n`. -/
def heapAgreesBelow (h h' : Heap) (n : ℕ) : Prop :=
  ∀ a, a < n → heapLookup h' a = heapLookup h a

/-- A value's reference (if any) lies in the address window `[lo, hi)`. -/
def valRefsIn (lo hi : ℕ) : HVal → Prop
  | .ref a => lo ≤ a ∧ a < hi
  | _ => True

/-- Every object at an address `≥ lo` has all its field references inside
`[lo, nextAddr)`: the freshly cloned region is closed under references. -/
def freshClosed (h' : Heap) (lo : ℕ) : Prop :=
  ∀ a obj, lo ≤ a → heapLookup h' a = some obj →
    ∀ p ∈ obj.fields, valRefsIn lo h'.nextAddr p.2

/-- What one `structuredClone` step guarantees about the output heap:
well-formed, allocation pointer advanced, every pre-existing cell
untouched, and the fresh region closed under references. -/
def CloneOut (h h' : Heap) : Prop :=
  HeapWF h' ∧ h.nextAddr ≤ h'.nextAddr ∧ heapAgreesBelow h h' h.nextAddr ∧
    freshClosed h' h.nextAddr

/-- Whether some event of the indexed list `evs` with index `i` is due at
local offset `tLocal`. -/
def evHit (evs : List (ℕ × ℚ)) (i : ℕ) (tLocal : ℚ) : Bool :=
  evs.any (fun e => decide (e.1 = i ∧ tLocal ≥ e.2))

/-- The run invariant of the preload pool after `k` settlements with
concurrency bound `c ≥ 1`: the active count is `min c (remaining tasks)`,
the pending queue is the corresponding suffix of the URL list, dispatch
order is the corresponding prefix (FIFO), and the completion signal has
fired (exactly once) precisely when no task remains. -/
def poolInv (c : ℕ) (urls : List ℕ) (k : ℕ) (s : Pool) : Prop :=
  s.active = min c (urls.length - k) ∧
  s.queue = urls.drop (k + min c (urls.length - k)) ∧
  s.started = urls.take (k + min c (urls.length - k)) ∧
  s.settledCount = k ∧
  s.resolvedFlag = decide (urls.length - k = 0) ∧
  s.doneSignals = (if urls.length - k = 0 then 1 else 0)

/-- A concrete manifest object graph: root 0 with a 2-element `scenes`
array (cell 1), scene cells 2 and 3, a nested media object (cell 4). -/
def c9Heap : Heap :=
  ⟨[(0, ⟨[("scenes", .ref 1), ("theme", .str "light")]⟩),
    (1, ⟨[("0", .ref 2), ("1", .ref 3)]⟩),
    (2, ⟨[("d", .num 2), ("media", .ref 4)]⟩),
    (3, ⟨[("t", .num 5), ("d", .num 3)]⟩),
    (4, ⟨[("src", .str "a.webp")]⟩)], 5⟩

/-- The heap produced by normalizing `c9Heap`: cells 0-4 are bit-for-bit
the original manifest; the clone lives at the fresh cells 5-9 (with `t`
assigned on the cloned scene 6 only). -/
def c9Result : Heap :=
  ⟨[(0, ⟨[("scenes", .ref 1), ("theme", .str "light")]⟩),
    (1, ⟨[("0", .ref 2), ("1", .ref 3)]⟩),
    (2, ⟨[("d", .num 2), ("media", .ref 4)]⟩),
    (3, ⟨[("t", .num 5), ("d", .num 3)]⟩),
    (4, ⟨[("src", .str "a.webp")]⟩),
    (5, ⟨[("src", .str "a.webp")]⟩),
    (6, ⟨[("d", .num 2), ("media", .ref 5), ("t", .num 0)]⟩),
    (7, ⟨[("t", .num 5), ("d", .num 3)]⟩),
    (8, ⟨[("0", .ref 6), ("1", .ref 7)]⟩),
    (9, ⟨[("scenes", .ref 8), ("theme", .str "light")]⟩)], 10⟩

/-! ## Supporting lemmas -/

theorem jsLe_fin (a b : ℚ) : JsNum.jsLe (.fin a) (.fin b) = decide (a ≤ b) := rfl

theorem findSceneIndexAtAux_eq_findIdx? (t : ℚ) :
    ∀ (l : List Scene) (i : ℕ),
      findSceneIndexAtAux t i l =
        (match List.findIdx? (fun s => containsAt s t) l i with
         | some j => (j : Int)
         | none => -1) := by
  intro l
  induction l with
  | nil => intro i; simp [findSceneIndexAtAux, List.findIdx?_nil]
  | cons s rest ih =>
    intro i
    by_cases h : s.t ≤ t ∧ t < s.t + s.d
    · simp [findSceneIndexAtAux, List.findIdx?_cons, containsAt, h]
    · simp [findSceneIndexAtAux, List.findIdx?_cons, containsAt, h, ih]

/-- Case analysis of the duration clamp: only `+Infinity` survives as a
truthy non-finite value; everything else becomes a rational `≥ 0.1`. -/
theorem clampedDur_cases (d : Option JsNum) :
    (d = some JsNum.posInf ∧ clampedDur d = .posInf) ∨
    (d ≠ some JsNum.posInf ∧ ∃ q : ℚ, clampedDur d = .fin q ∧ 1/10 ≤ q) := by
  match d with
  | none => exact .inr ⟨by simp, 1/10, by norm_num [clampedDur, jsOrZero,
      JsNum.truthy, JsNum.jsMax], le_refl _⟩
  | some .nan => exact .inr ⟨by simp, 1/10, by norm_num [clampedDur, jsOrZero,
      JsNum.truthy, JsNum.jsMax], le_refl _⟩
  | some .posInf => exact .inl ⟨rfl, by norm_num [clampedDur, jsOrZero,
      JsNum.truthy, JsNum.jsMax]⟩
  | some .negInf => exact .inr ⟨by simp, 1/10, by norm_num [clampedDur, jsOrZero,
      JsNum.truthy, JsNum.jsMax], le_refl _⟩
  | some (.fin q) =>
    refine .inr ⟨by simp, ?_⟩
    by_cases hq : q = 0
    · exact ⟨1/10, by norm_num [clampedDur, jsOrZero, JsNum.truthy, hq,
        JsNum.jsMax], le_refl _⟩
    · refine ⟨max (1/10) q, ?_, le_max_left _ _⟩
      have : JsNum.truthy (.fin q) = true := by simp [JsNum.truthy, hq]
      simp [clampedDur, jsOrZero, this, JsNum.jsMax]

/-- A clamped duration that is a rational `≥ 0.1` passes the loader check. -/
theorem loaderNormScene_ok_of_fin (s : LRawScene) (q : ℚ)
    (hd : clampedDur s.d = .fin q) (hq : 1/10 ≤ q) :
    loaderNormScene s = .ok ⟨s.t, .fin q⟩ := by
  have hqpos : (0 : ℚ) < q := lt_of_lt_of_le (by norm_num) hq
  have htr : (clampedDur s.d).truthy = true := by
    rw [hd]; simp [JsNum.truthy]; exact ne_of_gt hqpos
  have hfin : (clampedDur s.d).isFin = true := by rw [hd]; rfl
  rw [loaderNormScene, htr, hfin, hd]
  rfl

/-- A `+Infinity` raw duration makes the loader scene normalization throw. -/
theorem loaderNormScene_error_of_posInf (s : LRawScene)
    (hd : clampedDur s.d = .posInf) :
    loaderNormScene s = .error "Manifest scene requires positive duration d" := by
  rw [loaderNormScene, hd]
  rfl

/-- Bool form of the per-scene loader error condition. -/
theorem loaderNormScene_error_eq (s : LRawScene) :
    isError (loaderNormScene s) = (s.d == some JsNum.posInf) := by
  rcases clampedDur_cases s.d with ⟨hd, hc⟩ | ⟨hd, q, hc, hq⟩
  · rw [loaderNormScene_error_of_posInf s hc, hd]
    rfl
  · rw [loaderNormScene_ok_of_fin s q hc hq]
    simp [isError, hd]

/-- Error propagation of the loader scene map over a cons cell. -/
theorem loaderNormScenes_cons_error (s : LRawScene) (rest : List LRawScene) :
    isError (loaderNormScenes (s :: rest)) =
      (isError (loaderNormScene s) || isError (loaderNormScenes rest)) := by
  cases hs : loaderNormScene s <;> cases hr : loaderNormScenes rest <;>
    simp [loaderNormScenes, hs, hr, isError]

/-- The loader scene map throws exactly when some scene has a `+Infinity`
duration. -/
theorem loaderNormScenes_error_eq (l : List LRawScene) :
    isError (loaderNormScenes l) = l.any (fun s => s.d == some JsNum.posInf) := by
  induction l with
  | nil => rfl
  | cons s rest ih =>
    rw [loaderNormScenes_cons_error, loaderNormScene_error_eq, ih, List.any_cons]

/-- Accepted loader scenes all carry a clamped duration `≥ 0.1`. -/
theorem loaderNormScenes_clamped :
    ∀ (l : List LRawScene) (out : List LScene),
      loaderNormScenes l = .ok out →
      out.all (fun sc => JsNum.jsLe (.fin (1/10)) sc.d) = true := by
  intro l
  induction l with
  | nil =>
    intro out h
    simp [loaderNormScenes] at h
    subst h
    rfl
  | cons s rest ih =>
    intro out h
    rcases clampedDur_cases s.d with ⟨_, hc⟩ | ⟨_, q, hc, hq⟩
    · rw [loaderNormScenes, loaderNormScene_error_of_posInf s hc] at h
      cases h
    · rw [loaderNormScenes, loaderNormScene_ok_of_fin s q hc hq] at h
      cases hr : loaderNormScenes rest with
      | error e => rw [hr] at h; cases h
      | ok os =>
        rw [hr] at h
        cases h
        simp only [List.all_cons, Bool.and_eq_true]
        constructor
        · rw [jsLe_fin]
          simpa using hq
        · exact ih os hr

/-- The core normalizer throws exactly when some scene has a `badDur`
duration — which `NaN` and `+Infinity` do not (JS comparisons with `NaN`
are false), so those are accepted. -/
theorem coreNormScenes_error_eq (l : List CRawScene) :
    ∀ cursor : JsNum, isError (coreNormScenes cursor l) = l.any badDur := by
  induction l with
  | nil => intro cursor; rfl
  | cons s rest ih =>
    intro cursor
    rw [List.any_cons]
    match hd : s.d with
    | none => simp [coreNormScenes, hd, isError, badDur]
    | some x =>
      cases hle : x.jsLe (.fin 0) with
      | true => simp [coreNormScenes, hd, hle, isError, badDur]
      | false =>
        have hrest := ih (JsNum.jsAdd (s.t.getD cursor) x)
        cases hr : coreNormScenes (JsNum.jsAdd (s.t.getD cursor) x) rest with
        | error e =>
          rw [hr] at hrest
          simp [coreNormScenes, hd, hle, hr, isError, badDur, ← hrest]
        | ok os =>
          rw [hr] at hrest
          simp [coreNormScenes, hd, hle, hr, isError, badDur, ← hrest]

/-- Start-time chaining: when no scene of the input carries an explicit `t`,
every normalized start time is the fold of the preceding durations over the
initial cursor. -/
theorem coreNormScenes_noT_chain :
    ∀ (l : List CRawScene) (cursor : JsNum) (out : List CScene),
      (∀ s ∈ l, s.t = none) →
      coreNormScenes cursor l = .ok out →
      ∀ (i : ℕ) (sc : CScene), out[i]? = some sc →
        sc.t = (out.take i).foldl (fun acc s => JsNum.jsAdd acc s.d) cursor := by
  intro l
  induction l with
  | nil =>
    intro cursor out _ h i sc hsc
    simp [coreNormScenes] at h
    subst h
    simp at hsc
  | cons s rest ih =>
    intro cursor out hall h i sc hsc
    have hst : s.t = none := hall s (List.mem_cons_self _ _)
    match hd : s.d with
    | none => simp [coreNormScenes, hd] at h
    | some x =>
      simp only [coreNormScenes, hd, hst, Option.getD_none] at h
      cases hle : x.jsLe (.fin 0) with
      | true => simp [hle] at h
      | false =>
        simp only [hle, Bool.false_eq_true, if_false] at h
        cases hr : coreNormScenes (JsNum.jsAdd cursor x) rest with
        | error e => rw [hr] at h; simp at h
        | ok rest' =>
          rw [hr] at h
          simp only [Except.ok.injEq] at h
          subst h
          match i with
          | 0 =>
            simp at hsc
            subst hsc
            simp
          | j + 1 =>
            simp only [List.getElem?_cons_succ] at hsc
            have := ih (JsNum.jsAdd cursor x) rest'
              (fun s hs => hall s (List.mem_cons_of_mem _ hs)) hr j sc hsc
            rw [this]
            simp [List.take_succ_cons, List.foldl_cons]


/-! ## Claim theorems -/

/-- C3 counterexample: the claim says a scene with non-positive or
non-finite duration makes the Manifest Normalizer fail with a
ValidationError.  In fact the loader normalizer accepts a scene with
duration `0` (clamping it to `0.1`), and the core normalizer accepts a
scene with duration `Infinity` (since `Infinity <= 0` is false) — neither
input produces an error. -/
theorem nonpositive_duration_accepted :
    loadProjectValidate ⟨some [⟨none, some (.fin 0)⟩], none, none⟩ =
      .ok ⟨[⟨none, .fin (1/10)⟩], .fin (1/10), "light"⟩ ∧
    coreNormalizeManifest (some [⟨none, some JsNum.posInf⟩]) =
      .ok [⟨.fin 0, .posInf⟩] := by
  constructor
  · norm_num [loadProjectValidate, normalizeManifest, loaderNormScenes,
      loaderNormScene, clampedDur, jsOrZero, JsNum.truthy, JsNum.jsMax,
      JsNum.isFin, sumDurations, JsNum.jsAdd]
    intro h
    cases h
  · norm_num [coreNormalizeManifest, coreNormScenes, JsNum.jsLe, JsNum.jsAdd]

/-- C3 (amended): the loading step rejects a missing/non-array `scenes`;
the loader normalizer throws exactly when some scene duration is
`+Infinity` (after `Math.max(0.1, Number(d || 0))`, every other
number-valued duration — including `0`, negatives, `NaN`, `-Infinity` —
is clamped and accepted), and every accepted scene has duration `≥ 0.1`;
the core constructor rejects a missing/non-array `scenes` and its
normalizer throws exactly when a duration is missing or compares `<= 0`
(so `NaN` and `Infinity` pass), without clamping. -/
theorem normalizeManifest_error_characterization (ss : List LRawScene)
    (dur : Option JsNum) (th : Option String) (cs : List CRawScene) :
    isError (loadProjectValidate ⟨none, dur, th⟩) = true ∧
    isError (loadProjectValidate ⟨some ss, dur, th⟩) =
      ss.any (fun s => s.d == some JsNum.posInf) ∧
    (okScenes (loadProjectValidate ⟨some ss, dur, th⟩)).all
      (fun sc => JsNum.jsLe (.fin (1/10)) sc.d) = true ∧
    isError (coreNormalizeManifest none) = true ∧
    isError (coreNormalizeManifest (some cs)) = cs.any badDur := by
  refine ⟨rfl, ?_, ?_, rfl, ?_⟩
  · rw [← loaderNormScenes_error_eq]
    show isError (normalizeManifest ⟨some ss, dur, th⟩) = _
    cases hr : loaderNormScenes ss with
    | error e => simp [normalizeManifest, hr, isError]
    | ok out => simp [normalizeManifest, hr, isError]
  · show (okScenes (normalizeManifest ⟨some ss, dur, th⟩)).all _ = true
    cases hr : loaderNormScenes ss with
    | error e => simp [normalizeManifest, hr, okScenes]
    | ok out =>
      have := loaderNormScenes_clamped ss out hr
      simpa [normalizeManifest, hr, okScenes] using this
  · exact coreNormScenes_error_eq cs (.fin 0)

/-- C4: for every schedule and time `t`, `#findSceneIndexAt` returns the
lowest index whose half-open interval `[startTime, startTime+duration)`
contains `t`, and `-1` when no interval does (negative times and gaps
included); with overlapping explicit intervals the first matching index in
sequence order wins.  `specActiveSceneIndexAt` is written from the spec
sentence; the scheduler function coincides with it everywhere. -/
theorem findSceneIndexAt_matches_spec (m : Manifest) (t : ℚ) :
    findSceneIndexAt m t = specActiveSceneIndexAt m t := by
  rw [findSceneIndexAt, specActiveSceneIndexAt, findSceneIndexAtAux_eq_findIdx?]

/-- C5 counterexample: the claim says every scene without an explicit start
time resolves to the sum of all prior durations.  In the accepted manifest
`[{t: 10, d: 2}, {d: 3}]` the second scene has no explicit start time, the
sum of prior durations is `2`, but the resolved start time is `12`
(the chain continues from the explicit `t = 10`). -/
theorem explicit_start_breaks_prior_sum :
    coreNormalizeManifest
        (some [⟨some (.fin 10), some (.fin 2)⟩, ⟨none, some (.fin 3)⟩]) =
      .ok [⟨.fin 10, .fin 2⟩, ⟨.fin 12, .fin 3⟩] ∧
    sumPriorDurations [⟨.fin 10, .fin 2⟩, ⟨.fin 12, .fin 3⟩] 1 = .fin 2 ∧
    (⟨JsNum.fin 12, JsNum.fin 3⟩ : CScene).t ≠ .fin 2 := by
  refine ⟨?_, ?_, by decide⟩
  · norm_num [coreNormalizeManifest, coreNormScenes, JsNum.jsLe, JsNum.jsAdd]
  · norm_num [sumPriorDurations, JsNum.jsAdd]

/-- C5 (amended): auto-chaining continues from the previous scene's
resolved end (`t + d`); therefore in an accepted manifest in which NO scene
has an explicit start time, every resolved start time equals the sum of the
durations of all prior scenes.  In particular the `[2,3,2]` manifest of
spec §8 resolves (through the loader and then the core normalizer, as in
`app.js`) to start times `[0, 2, 5]` with loader total duration `7`. -/
theorem auto_chain_start_times (l : List CRawScene) (out : List CScene)
    (h : coreNormalizeManifest (some l) = .ok out)
    (hall : ∀ s ∈ l, s.t = none)
    (i : ℕ) (sc : CScene) (hi : out[i]? = some sc) :
    sc.t = sumPriorDurations out i ∧
    normalizeManifest demoRaw =
      .ok ⟨[⟨none, .fin 2⟩, ⟨none, .fin 3⟩, ⟨none, .fin 2⟩], .fin 7, "light"⟩ ∧
    coreNormalizeManifest
        (some ((okScenes (normalizeManifest demoRaw)).map loaderToCoreRaw)) =
      .ok [⟨.fin 0, .fin 2⟩, ⟨.fin 2, .fin 3⟩, ⟨.fin 5, .fin 2⟩] := by
  refine ⟨coreNormScenes_noT_chain l (.fin 0) out hall h i sc hi, ?_, ?_⟩
  · norm_num [demoRaw, normalizeManifest, loaderNormScenes, loaderNormScene,
      clampedDur, jsOrZero, JsNum.truthy, JsNum.jsMax, JsNum.isFin,
      sumDurations, JsNum.jsAdd]
    intro h'
    cases h'
  · norm_num [demoRaw, normalizeManifest, loaderNormScenes, loaderNormScene,
      clampedDur, jsOrZero, JsNum.truthy, JsNum.jsMax, JsNum.isFin,
      sumDurations, okScenes, loaderToCoreRaw, coreNormalizeManifest,
      coreNormScenes, JsNum.jsLe, JsNum.jsAdd]

/-- Witness for C5's amended theorem at the `[2,3,2]` schedule, scene
index 2. -/
theorem auto_chain_start_times_witness :
    (⟨JsNum.fin 5, JsNum.fin 2⟩ : CScene).t =
      sumPriorDurations [⟨.fin 0, .fin 2⟩, ⟨.fin 2, .fin 3⟩, ⟨.fin 5, .fin 2⟩] 2 ∧
    normalizeManifest demoRaw =
      .ok ⟨[⟨none, .fin 2⟩, ⟨none, .fin 3⟩, ⟨none, .fin 2⟩], .fin 7, "light"⟩ ∧
    coreNormalizeManifest
        (some ((okScenes (normalizeManifest demoRaw)).map loaderToCoreRaw)) =
      .ok [⟨.fin 0, .fin 2⟩, ⟨.fin 2, .fin 3⟩, ⟨.fin 5, .fin 2⟩] :=
  auto_chain_start_times
    [⟨none, some (.fin 2)⟩, ⟨none, some (.fin 3)⟩, ⟨none, some (.fin 2)⟩]
    [⟨.fin 0, .fin 2⟩, ⟨.fin 2, .fin 3⟩, ⟨.fin 5, .fin 2⟩]
    (by norm_num [coreNormalizeManifest, coreNormScenes, JsNum.jsLe, JsNum.jsAdd])
    (by decide) 2 ⟨.fin 5, .fin 2⟩ (by decide)

/-- C10: the `ZdkCore` constructor accepts a manifest whose `scenes` is an
empty array (`Array.isArray([])` holds and the per-scene validation is
vacuous), but every loop iteration reads
`scenes[scenes.length - 1]` unguarded in its stop condition, so for the
empty schedule the loop-body function is not total: with `running` set it
always throws (returns `none`) instead of producing a next state. -/
theorem empty_manifest_accepted_but_loop_throws :
    coreNormalizeManifest (some []) = .ok [] ∧
    (∀ (st : CoreState) (now : ℚ), st.running = true →
      loopIter ⟨[]⟩ st now = none) := by
  refine ⟨rfl, ?_⟩
  intro st now h
  simp [loopIter, h, List.getLast?]

/-- Witness for C10 at the freshly started state and `now = 0`. -/
theorem empty_manifest_accepted_but_loop_throws_witness :
    startState.running = true ∧ loopIter ⟨[]⟩ startState 0 = none :=
  ⟨rfl, empty_manifest_accepted_but_loop_throws.2 startState 0 rfl⟩

/-- C1 (code bug): with the terminal scene already mounted and its
sub-events not yet fired (schedule `c1Manifest`, ticked once at `t = 1`,
events due at offset 5), `stop(true)` returns from
`#ensureSceneMounted(lastIdx, true)` through the early
`if (this._sceneNodes.has(index))` branch, so neither the text event nor
the callout event of the terminal scene ends fired or visible — against
the claim (and the source's own comment "Force finalize: show last scene
in steady state").  The halt half of the claim does hold: `running` is
cleared and every later loop iteration returns the state unchanged.  When
the terminal scene is NOT yet mounted, the finalize path does reveal both
sub-events (`c1Fresh`), which isolates the early return as the defect. -/
theorem stop_finalize_skips_mounted_scene :
    loopIter c1Manifest startState 1 = some c1Mounted ∧
    stop c1Manifest true c1Mounted = some c1Stopped ∧
    c1Stopped.running = false ∧
    textKey 0 0 ∉ c1Stopped.visible ∧
    calloutKey 0 0 ∉ c1Stopped.visible ∧
    textKey 0 0 ∉ c1Stopped.firedText ∧
    calloutKey 0 0 ∉ c1Stopped.firedCallout ∧
    (∀ now : ℚ, loopIter c1Manifest c1Stopped now = some c1Stopped) ∧
    ensureSceneMounted c1Manifest 0 true startState = some c1Fresh ∧
    textKey 0 0 ∈ c1Fresh.visible ∧
    calloutKey 0 0 ∈ c1Fresh.visible := by
  refine ⟨?_, by decide, by decide, by decide, by decide, by decide, by decide,
    fun _ => rfl, by decide, by decide, by decide⟩
  norm_num [loopIter, findSceneIndexAt, findSceneIndexAtAux, onSceneChange,
    exitScene, ensureSceneMounted, enterScene, tickScene, fireEvents, withIdx,
    textOffsets, calloutOffsets, textKey, calloutKey, stop, startState,
    c1Manifest, c1Mounted, List.getLast?]

/-- C2 (code bug): re-entering scene 0 after its events fired
(schedule `c2Manifest`) clears the text-event key but NOT the callout-event
key: `#enterScene` deletes the string `` `${index}#${idx}` `` from
`_firedCallout`, while `#tickScene` stored `` `${index}#c${idx}` ``, so the
delete never matches — against the claim that all of the scene's Trigger
Key entries are cleared on enter (and against the source's own comment
"Reset fired sets for this scene").  Consequently a tick of the re-entered
scene fires the text event again but can never fire the callout again. -/
theorem enter_scene_does_not_clear_callout_keys :
    loopIter c2Manifest startState 0 = some c2Fired ∧
    enterScene c2Manifest 0 c2Fired = c2Entered ∧
    textKey 0 0 ∉ c2Entered.firedText ∧
    calloutKey 0 0 ∈ c2Entered.firedCallout ∧
    tickScene c2Manifest 0 1 c2Entered = c2Reticked ∧
    c2Reticked.revealLog.count (calloutKey 0 0) = 1 ∧
    c2Reticked.revealLog.count (textKey 0 0) = 2 := by
  refine ⟨?_, by decide, by decide, by decide, ?_, by decide, by decide⟩
  · norm_num [loopIter, findSceneIndexAt, findSceneIndexAtAux, onSceneChange,
      exitScene, ensureSceneMounted, enterScene, tickScene, fireEvents, withIdx,
      textOffsets, calloutOffsets, textKey, calloutKey, stop, startState,
      c2Manifest, c2Fired, List.getLast?]
  · norm_num [tickScene, fireEvents, withIdx, textOffsets, calloutOffsets,
      textKey, calloutKey, c2Manifest, c2Entered, c2Reticked]

theorem fillAux_spec (c : ℕ) :
    ∀ (q : List ℕ) (a : ℕ) (st : List ℕ),
      fillAux c q a st =
        (q.drop (min (c - a) q.length), a + min (c - a) q.length,
          st ++ q.take (min (c - a) q.length)) := by
  intro q
  induction q with
  | nil => intro a st; simp [fillAux]
  | cons u rest ih =>
    intro a st
    by_cases h : a < c
    · rw [fillAux, if_pos h, ih]
      have hk : min (c - a) (u :: rest).length = min (c - (a + 1)) rest.length + 1 := by
        simp only [List.length_cons]
        omega
      rw [hk]
      simp [List.drop_succ_cons, List.take_succ_cons, List.append_assoc]
      omega
    · have hca : c - a = 0 := by omega
      rw [fillAux, if_neg h]
      simp [hca]

theorem fill_spec (c : ℕ) (s : Pool) :
    fill c s =
      { s with
        queue := s.queue.drop (min (c - s.active) s.queue.length)
        active := s.active + min (c - s.active) s.queue.length
        started := s.started ++ s.queue.take (min (c - s.active) s.queue.length) } := by
  rw [fill, fillAux_spec]

theorem poolInv_init (c : ℕ) (urls : List ℕ) (hc : 1 ≤ c) :
    poolInv c urls 0 (nextStep c (initPool urls)) := by
  cases urls with
  | nil =>
    refine ⟨?_, ?_, ?_, ?_, ?_, ?_⟩ <;> simp [nextStep, initPool]
  | cons u rest =>
    rw [nextStep, if_neg (by simp [initPool])]
    rw [fill_spec]
    refine ⟨?_, ?_, ?_, ?_, ?_, ?_⟩
    · show 0 + min (c - 0) ((u :: rest).length) = min c ((u :: rest).length)
      omega
    · show (u :: rest).drop (min (c - 0) ((u :: rest).length)) =
        (u :: rest).drop (0 + min c ((u :: rest).length))
      congr 1
      omega
    · show [] ++ (u :: rest).take (min (c - 0) ((u :: rest).length)) =
        (u :: rest).take (0 + min c ((u :: rest).length))
      rw [List.nil_append]
      congr 1
      omega
    · rfl
    · show false = decide ((u :: rest).length - 0 = 0)
      simp
    · show 0 = if (u :: rest).length - 0 = 0 then 1 else 0
      simp

theorem poolInv_step (c : ℕ) (urls : List ℕ) (k : ℕ) (ok : Bool) (s : Pool)
    (hc : 1 ≤ c) (hk : k < urls.length) (hinv : poolInv c urls k s) :
    poolInv c urls (k + 1) (settleStep c ok s) := by
  obtain ⟨ha, hq, hst, hsc, hrf, hds⟩ := hinv
  have hqlen : s.queue.length = urls.length - (k + min c (urls.length - k)) := by
    rw [hq, List.length_drop]
  rw [settleStep, nextStep]
  by_cases hcond : s.queue = [] ∧ s.active - 1 = 0
  · rw [if_pos hcond]
    have hqe : s.queue = [] := hcond.1
    have hae : s.active - 1 = 0 := hcond.2
    have hnk : urls.length - k = 1 := by
      rw [hq, List.drop_eq_nil_iff] at hqe
      rw [ha] at hae
      omega
    refine ⟨?_, ?_, ?_, ?_, ?_, ?_⟩
    · show s.active - 1 = min c (urls.length - (k + 1))
      rw [ha]
      omega
    · show s.queue = urls.drop ((k + 1) + min c (urls.length - (k + 1)))
      rw [hqe, Eq.comm, List.drop_eq_nil_iff]
      omega
    · show s.started = urls.take ((k + 1) + min c (urls.length - (k + 1)))
      rw [hst]
      congr 1
      omega
    · show s.settledCount + 1 = k + 1
      rw [hsc]
    · show true = decide (urls.length - (k + 1) = 0)
      have h0 : urls.length - (k + 1) = 0 := by omega
      rw [h0]
      rfl
    · show s.doneSignals + 1 = if urls.length - (k + 1) = 0 then 1 else 0
      rw [hds]
      have h0 : ¬(urls.length - k = 0) := by omega
      have h1 : urls.length - (k + 1) = 0 := by omega
      simp [h0, h1]
  · rw [if_neg hcond]
    have hnk2 : 2 ≤ urls.length - k := by
      by_contra hlt
      have hnk : urls.length - k = 1 := by omega
      apply hcond
      constructor
      · rw [hq, List.drop_eq_nil_iff]
        omega
      · rw [ha]
        omega
    rw [fill_spec]
    refine ⟨?_, ?_, ?_, ?_, ?_, ?_⟩
    · show (s.active - 1) + min (c - (s.active - 1)) s.queue.length =
        min c (urls.length - (k + 1))
      rw [ha, hqlen]
      omega
    · show s.queue.drop (min (c - (s.active - 1)) s.queue.length) =
        urls.drop ((k + 1) + min c (urls.length - (k + 1)))
      rw [hqlen, ha, hq, List.drop_drop]
      congr 1
      omega
    · show s.started ++ s.queue.take (min (c - (s.active - 1)) s.queue.length) =
        urls.take ((k + 1) + min c (urls.length - (k + 1)))
      rw [hqlen, ha, hq, hst, ← List.take_add]
      congr 1
      omega
    · show s.settledCount + 1 = k + 1
      rw [hsc]
    · show s.resolvedFlag = decide (urls.length - (k + 1) = 0)
      rw [hrf]
      have h0 : ¬(urls.length - k = 0) := by omega
      have h1 : ¬(urls.length - (k + 1) = 0) := by omega
      simp [h0, h1]
    · show s.doneSignals = if urls.length - (k + 1) = 0 then 1 else 0
      rw [hds]
      have h0 : ¬(urls.length - k = 0) := by omega
      have h1 : ¬(urls.length - (k + 1) = 0) := by omega
      simp [h0, h1]

theorem poolInv_run (c : ℕ) (urls : List ℕ) (hc : 1 ≤ c) :
    ∀ (oks : List Bool) (k : ℕ) (s : Pool), poolInv c urls k s →
      k + oks.length ≤ urls.length →
      poolInv c urls (k + oks.length) (settleRun c oks s) := by
  intro oks
  induction oks with
  | nil =>
    intro k s h _
    simpa [settleRun] using h
  | cons ok rest ih =>
    intro k s h hlen
    have hstep := poolInv_step c urls k ok s hc (by simp at hlen; omega) h
    have hrun := ih (k + 1) (settleStep c ok s) hstep (by simp at hlen ⊢; omega)
    have harith : k + 1 + rest.length = k + (ok :: rest).length := by
      simp
      omega
    rw [harith] at hrun
    simpa [settleRun, List.foldl_cons] using hrun

theorem runPool_inv (c : ℕ) (urls : List ℕ) (oks : List Bool)
    (hc : 1 ≤ c) (hlen : oks.length ≤ urls.length) :
    poolInv c urls oks.length (runPool c urls oks) := by
  have := poolInv_run c urls hc oks 0 (nextStep c (initPool urls))
    (poolInv_init c urls hc) (by omega)
  simpa [runPool] using this

/-- C6: for every URL list and every pattern of per-task successes and
failures, the preload pipeline's aggregate completion signal resolves
exactly once, and only at a point where the pending queue is empty and the
active count is 0 — i.e. after every URL has either succeeded or exhausted
its retries.  The model has no rejection transition at all (the executor
only ever calls `resolve`; per-task failures are swallowed by `.catch`
before the `.finally` bookkeeping), and the final four conjuncts show the
completion state is independent of which tasks failed.  `oks` ranges over
every partial settle sequence, so the first four conjuncts hold at every
state the run passes through. -/
theorem preload_completion_resolves_once (c : ℕ) (urls : List ℕ)
    (oks oks₂ : List Bool) (hc : 1 ≤ c) (hlen : oks.length ≤ urls.length)
    (hlen₂ : oks₂.length = oks.length) :
    ((runPool c urls oks).resolvedFlag = true ↔
      (runPool c urls oks).queue = [] ∧ (runPool c urls oks).active = 0) ∧
    ((runPool c urls oks).resolvedFlag = true ↔ oks.length = urls.length) ∧
    (runPool c urls oks).doneSignals ≤ 1 ∧
    ((runPool c urls oks).doneSignals = 1 ↔ oks.length = urls.length) ∧
    (runPool c urls oks₂).resolvedFlag = (runPool c urls oks).resolvedFlag ∧
    (runPool c urls oks₂).doneSignals = (runPool c urls oks).doneSignals ∧
    (runPool c urls oks₂).queue = (runPool c urls oks).queue ∧
    (runPool c urls oks₂).active = (runPool c urls oks).active := by
  obtain ⟨ha, hq, hst, hsc, hrf, hds⟩ := runPool_inv c urls oks hc hlen
  obtain ⟨ha₂, hq₂, hst₂, hsc₂, hrf₂, hds₂⟩ :=
    runPool_inv c urls oks₂ hc (by omega)
  rw [hlen₂] at ha₂ hq₂ hrf₂ hds₂
  refine ⟨?_, ?_, ?_, ?_, ?_, ?_, ?_, ?_⟩
  · rw [hrf, hq, ha]
    simp only [decide_eq_true_eq, List.drop_eq_nil_iff]
    omega
  · rw [hrf]
    simp only [decide_eq_true_eq]
    omega
  · rw [hds]
    split <;> omega
  · rw [hds]
    split
    · simp
      omega
    · simp
      omega
  · rw [hrf₂, hrf]
  · rw [hds₂, hds]
  · rw [hq₂, hq]
  · rw [ha₂, ha]

/-- C7: throughout every run of the preload pipeline the number of
in-flight readiness checks never exceeds the concurrency bound, URLs are
dispatched in FIFO order (the started list is always a prefix, in order,
of the URL list), and the dispatch loop starts nothing when the active
count is at (or above) the bound. -/
theorem preload_concurrency_bounded (c : ℕ) (urls : List ℕ) (oks : List Bool)
    (s : Pool) (hc : 1 ≤ c) (hlen : oks.length ≤ urls.length)
    (hs : c ≤ s.active) :
    (runPool c urls oks).active ≤ c ∧
    (runPool c urls oks).started =
      urls.take (oks.length + min c (urls.length - oks.length)) ∧
    fill c s = s := by
  obtain ⟨ha, hq, hst, _, _, _⟩ := runPool_inv c urls oks hc hlen
  refine ⟨by rw [ha]; omega, hst, ?_⟩
  rw [fill_spec]
  have h0 : c - s.active = 0 := by omega
  rw [h0]
  simp

/-- Witness for C6 at the spec §8 scenario: 5 URLs, concurrency 2, one
task failing — the pipeline resolves exactly once after all 5 settle. -/
theorem preload_completion_resolves_once_witness :
    ((runPool 2 [0, 1, 2, 3, 4] [true, true, false, true, true]).resolvedFlag = true ↔
      (runPool 2 [0, 1, 2, 3, 4] [true, true, false, true, true]).queue = [] ∧
        (runPool 2 [0, 1, 2, 3, 4] [true, true, false, true, true]).active = 0) ∧
    ((runPool 2 [0, 1, 2, 3, 4] [true, true, false, true, true]).resolvedFlag = true ↔
      [true, true, false, true, true].length = [0, 1, 2, 3, 4].length) ∧
    (runPool 2 [0, 1, 2, 3, 4] [true, true, false, true, true]).doneSignals ≤ 1 ∧
    ((runPool 2 [0, 1, 2, 3, 4] [true, true, false, true, true]).doneSignals = 1 ↔
      [true, true, false, true, true].length = [0, 1, 2, 3, 4].length) ∧
    (runPool 2 [0, 1, 2, 3, 4] [true, true, true, true, true]).resolvedFlag =
      (runPool 2 [0, 1, 2, 3, 4] [true, true, false, true, true]).resolvedFlag ∧
    (runPool 2 [0, 1, 2, 3, 4] [true, true, true, true, true]).doneSignals =
      (runPool 2 [0, 1, 2, 3, 4] [true, true, false, true, true]).doneSignals ∧
    (runPool 2 [0, 1, 2, 3, 4] [true, true, true, true, true]).queue =
      (runPool 2 [0, 1, 2, 3, 4] [true, true, false, true, true]).queue ∧
    (runPool 2 [0, 1, 2, 3, 4] [true, true, true, true, true]).active =
      (runPool 2 [0, 1, 2, 3, 4] [true, true, false, true, true]).active :=
  preload_completion_resolves_once 2 [0, 1, 2, 3, 4]
    [true, true, false, true, true] [true, true, true, true, true]
    (by decide) (by decide) (by decide)

/-- Witness for C7 with concurrency 2 over 5 URLs after one settle, and a
saturated pool state that `fill` leaves untouched. -/
theorem preload_concurrency_bounded_witness :
    (runPool 2 [0, 1, 2, 3, 4] [true]).active ≤ 2 ∧
    (runPool 2 [0, 1, 2, 3, 4] [true]).started =
      [0, 1, 2, 3, 4].take ([true].length + min 2 ([0, 1, 2, 3, 4].length - [true].length)) ∧
    fill 2 ⟨[9], 2, [7], 0, 0, false, 0⟩ = ⟨[9], 2, [7], 0, 0, false, 0⟩ :=
  preload_concurrency_bounded 2 [0, 1, 2, 3, 4] [true]
    ⟨[9], 2, [7], 0, 0, false, 0⟩ (by decide) (by decide) (by decide)

theorem evHit_cons (j : ℕ) (b : ℚ) (rest : List (ℕ × ℚ)) (i : ℕ) (t : ℚ) :
    evHit ((j, b) :: rest) i t = (decide (j = i ∧ t ≥ b) || evHit rest i t) := by
  simp [evHit, List.any_cons]

theorem fireEvents_mem (mk : ℕ → TKey) (hinj : ∀ a b, mk a = mk b → a = b)
    (tLocal : ℚ) (i : ℕ) :
    ∀ (evs : List (ℕ × ℚ)) (fired vis log : List TKey),
      (mk i ∈ (fireEvents mk tLocal evs fired vis log).1 ↔
        mk i ∈ fired ∨ evHit evs i tLocal = true) := by
  intro evs
  induction evs with
  | nil => intro fired vis log; simp [fireEvents, evHit]
  | cons e rest ih =>
    intro fired vis log
    obtain ⟨j, b⟩ := e
    rw [fireEvents]
    by_cases hcond : mk j ∉ fired ∧ tLocal ≥ b
    · rw [if_pos hcond, ih, evHit_cons]
      by_cases hij : j = i
      · subst hij
        simp [hcond.2]
      · have hne : mk i ≠ mk j := fun h => hij (hinj _ _ h.symm)
        simp [List.mem_cons, hne, hij]
    · rw [if_neg hcond, ih, evHit_cons]
      by_cases hij : j = i
      · subst hij
        rcases not_and_or.mp hcond with hmem | hlt
        · rw [not_not] at hmem
          simp [hmem]
        · simp [hlt]
      · simp [hij]

theorem fireEvents_count (mk : ℕ → TKey) (hinj : ∀ a b, mk a = mk b → a = b)
    (tLocal : ℚ) (i : ℕ) :
    ∀ (evs : List (ℕ × ℚ)) (fired vis log : List TKey),
      ((fireEvents mk tLocal evs fired vis log).2.2).count (mk i) =
        log.count (mk i) +
          (if mk i ∉ fired ∧ evHit evs i tLocal = true then 1 else 0) := by
  intro evs
  induction evs with
  | nil => intro fired vis log; simp [fireEvents, evHit]
  | cons e rest ih =>
    intro fired vis log
    obtain ⟨j, b⟩ := e
    rw [fireEvents]
    by_cases hcond : mk j ∉ fired ∧ tLocal ≥ b
    · rw [if_pos hcond, ih, evHit_cons]
      by_cases hij : j = i
      · subst hij
        simp [List.count_append, hcond.1, hcond.2, List.mem_cons]
      · have hne : mk i ≠ mk j := fun h => hij (hinj _ _ h.symm)
        simp [List.count_append, List.mem_cons, hne, hij,
          List.count_singleton]
    · rw [if_neg hcond, ih, evHit_cons]
      by_cases hij : j = i
      · subst hij
        rcases not_and_or.mp hcond with hmem | hlt
        · rw [not_not] at hmem
          simp [hmem]
        · simp [hlt]
      · simp [hij]

theorem fireEvents_count_other (mk : ℕ → TKey) (tLocal : ℚ) (key : TKey)
    (hkey : ∀ j, mk j ≠ key) :
    ∀ (evs : List (ℕ × ℚ)) (fired vis log : List TKey),
      ((fireEvents mk tLocal evs fired vis log).2.2).count key =
        log.count key := by
  intro evs
  induction evs with
  | nil => intro fired vis log; simp [fireEvents]
  | cons e rest ih =>
    intro fired vis log
    obtain ⟨j, b⟩ := e
    rw [fireEvents]
    by_cases hcond : mk j ∉ fired ∧ tLocal ≥ b
    · rw [if_pos hcond, ih]
      have hz : List.count key [mk j] = 0 := by
        rw [List.count_eq_zero]
        simp only [List.mem_singleton]
        exact fun h => hkey j h.symm
      simp [List.count_append, hz]
    · rw [if_neg hcond, ih]

theorem tickScene_key (m : Manifest) (index : ℕ) (s : Scene)
    (hs : m.scenes[index]? = some s) (k : Bool) (i : ℕ) (t : ℚ) (st : CoreState)
    (hm : (index : Int) ∈ st.mounted) :
    (mkKey k index i ∈ firedSetOf (tickScene m index t st) k ↔
      mkKey k index i ∈ firedSetOf st k ∨
        evHit (withIdx 0 (sceneEvOffsets s k)) i (t - s.t) = true) ∧
    (tickScene m index t st).revealLog.count (mkKey k index i) =
      st.revealLog.count (mkKey k index i) +
        (if mkKey k index i ∉ firedSetOf st k ∧
            evHit (withIdx 0 (sceneEvOffsets s k)) i (t - s.t) = true
         then 1 else 0) := by
  have hinjT : ∀ a b : ℕ, textKey index a = textKey index b → a = b := by
    intro a b h
    simpa [textKey] using h
  have hinjC : ∀ a b : ℕ, calloutKey index a = calloutKey index b → a = b := by
    intro a b h
    simpa [calloutKey] using h
  cases k with
  | false =>
    simp only [mkKey, firedSetOf, sceneEvOffsets, Bool.false_eq_true, if_false,
      tickScene, hs, hm, not_true_eq_false]
    constructor
    · exact fireEvents_mem (textKey index) hinjT (t - s.t) i _ _ _ _
    · rw [fireEvents_count_other (calloutKey index) (t - s.t) (textKey index i)
        (fun j => by simp [calloutKey, textKey])]
      exact fireEvents_count (textKey index) hinjT (t - s.t) i _ _ _ _
  | true =>
    simp only [mkKey, firedSetOf, sceneEvOffsets, if_true, if_false,
      tickScene, hs, hm, not_true_eq_false]
    constructor
    · exact fireEvents_mem (calloutKey index) hinjC (t - s.t) i _ _ _ _
    · rw [fireEvents_count (calloutKey index) hinjC (t - s.t) i]
      rw [fireEvents_count_other (textKey index) (t - s.t) (calloutKey index i)
        (fun j => by simp [calloutKey, textKey])]

theorem tickScene_mounted (m : Manifest) (index : ℕ) (now : ℚ) (st : CoreState) :
    (tickScene m index now st).mounted = st.mounted := by
  cases hs : m.scenes[index]? with
  | none => simp [tickScene, hs]
  | some s =>
    simp only [tickScene, hs]
    split
    · rfl
    · rfl

theorem evHit_withIdx_lt :
    ∀ (l : List ℚ) (n j : ℕ) (t : ℚ), j < n → evHit (withIdx n l) j t = false := by
  intro l
  induction l with
  | nil => intro n j t _; simp [withIdx, evHit]
  | cons b rest ih =>
    intro n j t hj
    rw [withIdx, evHit_cons]
    have h1 : ¬(n = j) := by omega
    simp [h1, ih (n + 1) j t (by omega)]

theorem evHit_withIdx :
    ∀ (l : List ℚ) (n i : ℕ) (a : ℚ), l[i]? = some a → ∀ t : ℚ,
      evHit (withIdx n l) (n + i) t = decide (t ≥ a) := by
  intro l
  induction l with
  | nil => intro n i a ha; simp at ha
  | cons b rest ih =>
    intro n i a ha t
    rw [withIdx, evHit_cons]
    match i with
    | 0 =>
      simp only [List.getElem?_cons_zero, Option.some.injEq] at ha
      subst ha
      have h2 : evHit (withIdx (n + 1) rest) n t = false :=
        evHit_withIdx_lt rest (n + 1) n t (by omega)
      simp [h2]
    | i' + 1 =>
      simp only [List.getElem?_cons_succ] at ha
      have h1 : ¬(n = n + (i' + 1)) := by omega
      have h2 := ih (n + 1) i' a ha t
      have h3 : n + 1 + i' = n + (i' + 1) := by omega
      rw [h3] at h2
      simp [h1, h2]

theorem runTicks_key (m : Manifest) (index : ℕ) (s : Scene)
    (hs : m.scenes[index]? = some s) (k : Bool) (i : ℕ) :
    ∀ (ts : List ℚ) (st : CoreState), (index : Int) ∈ st.mounted →
      ((mkKey k index i ∈ firedSetOf (runTicks m index ts st) k ↔
        mkKey k index i ∈ firedSetOf st k ∨
          ts.any (fun t => evHit (withIdx 0 (sceneEvOffsets s k)) i (t - s.t)) = true) ∧
      (runTicks m index ts st).revealLog.count (mkKey k index i) =
        st.revealLog.count (mkKey k index i) +
          (if mkKey k index i ∉ firedSetOf st k ∧
              ts.any (fun t => evHit (withIdx 0 (sceneEvOffsets s k)) i (t - s.t)) = true
           then 1 else 0)) := by
  intro ts
  induction ts with
  | nil =>
    intro st _
    simp [runTicks]
  | cons t ts ih =>
    intro st hm
    have hm' : (index : Int) ∈ (tickScene m index t st).mounted := by
      rw [tickScene_mounted]
      exact hm
    have hstep := tickScene_key m index s hs k i t st hm
    have hih := ih (tickScene m index t st) hm'
    rw [runTicks]
    constructor
    · rw [hih.1, hstep.1, List.any_cons]
      simp [or_assoc]
    · by_cases hmem : mkKey k index i ∈ firedSetOf st k
      · have hmem' : mkKey k index i ∈ firedSetOf (tickScene m index t st) k :=
          (hstep.1).mpr (.inl hmem)
        simp [hih.2, hstep.2, hmem, hmem']
      · by_cases hhit : evHit (withIdx 0 (sceneEvOffsets s k)) i (t - s.t) = true
        · have hmem' : mkKey k index i ∈ firedSetOf (tickScene m index t st) k :=
            (hstep.1).mpr (.inr hhit)
          simp [hih.2, hstep.2, hmem, hhit, hmem', List.any_cons]
        · have hmem' : mkKey k index i ∉ firedSetOf (tickScene m index t st) k := by
            rw [hstep.1]
            simp [hmem, hhit]
          simp [hih.2, hstep.2, hmem, hhit, hmem', List.any_cons]

/-- C8: for every sub-event of the active scene with offset `a`, within one
scene entry (a state where the event is not yet in the fired set and no
reveal for it has been logged, the scene being mounted): over ANY sequence
of scheduler ticks, the event is in the fired set exactly when some tick
had local offset `now - scene.t ≥ a` — applied to each prefix of the tick
sequence this says it fires on the FIRST such tick and not before — and
the visual reveal is requested exactly once when that happens, never
twice (`k` selects text or callout events). -/
theorem event_fires_on_first_due_tick (m : Manifest) (index : ℕ) (s : Scene)
    (hs : m.scenes[index]? = some s) (k : Bool) (i : ℕ) (a : ℚ)
    (ha : (sceneEvOffsets s k)[i]? = some a)
    (st : CoreState) (hm : (index : Int) ∈ st.mounted)
    (hf : mkKey k index i ∉ firedSetOf st k)
    (hlog : st.revealLog.count (mkKey k index i) = 0)
    (ts : List ℚ) :
    (mkKey k index i ∈ firedSetOf (runTicks m index ts st) k ↔
      hitsAt ts s.t a = true) ∧
    (runTicks m index ts st).revealLog.count (mkKey k index i) =
      (if hitsAt ts s.t a = true then 1 else 0) := by
  have hfun : (fun t => evHit (withIdx 0 (sceneEvOffsets s k)) i (t - s.t)) =
      (fun t => decide (t - s.t ≥ a)) := by
    funext t
    have := evHit_withIdx (sceneEvOffsets s k) 0 i a ha (t - s.t)
    simpa using this
  have hany : ∀ ts' : List ℚ,
      ts'.any (fun t => evHit (withIdx 0 (sceneEvOffsets s k)) i (t - s.t)) =
        hitsAt ts' s.t a := by
    intro ts'
    rw [hfun]
    rfl
  have hrun := runTicks_key m index s hs k i ts st hm
  constructor
  · rw [hrun.1, hany]
    simp [hf]
  · rw [hrun.2, hlog, hany]
    simp [hf]

/-- Witness for C8: the text event at offset 5 of `c1Manifest`, ticked at
times 1, 6, 7 — fired, with exactly one reveal request. -/
theorem event_fires_on_first_due_tick_witness :
    (mkKey false 0 0 ∈ firedSetOf (runTicks c1Manifest 0 [1, 6, 7] c1Mounted) false ↔
      hitsAt [1, 6, 7] (0 : ℚ) 5 = true) ∧
    (runTicks c1Manifest 0 [1, 6, 7] c1Mounted).revealLog.count (mkKey false 0 0) =
      (if hitsAt [1, 6, 7] (0 : ℚ) 5 = true then 1 else 0) :=
  event_fires_on_first_due_tick c1Manifest 0 ⟨0, 10, [⟨5⟩], [⟨5⟩]⟩ (by decide)
    false 0 5 (by decide) c1Mounted (by decide) (by decide) (by decide) [1, 6, 7]
theorem find?_key_write_ne (a b : ℕ) (o : HObj) (hne : a ≠ b) :
    ∀ l : List (ℕ × HObj),
      List.find? (fun p => p.1 = a) (l.map (fun p => if p.1 = b then (b, o) else p)) =
        List.find? (fun p => p.1 = a) l := by
  intro l
  induction l with
  | nil => rfl
  | cons q rest ih =>
    by_cases hqb : q.1 = b
    · have h2 : decide ((b, o).1 = a) = false := by
        simp only [decide_eq_false_iff_not]
        exact fun hh => hne hh.symm
      have h3 : decide (q.1 = a) = false := by
        simp only [decide_eq_false_iff_not]
        rw [hqb]
        omega
      simp only [List.map_cons, if_pos hqb, List.find?_cons, h2, h3]
      exact ih
    · simp only [List.map_cons, if_neg hqb, List.find?_cons]
      cases hqa : decide (q.1 = a) with
      | false =>
        simp only [hqa]
        exact ih
      | true => simp only [hqa]

theorem heapWrite_lookup_ne (h : Heap) (b : ℕ) (o : HObj) (a : ℕ) (hne : a ≠ b) :
    heapLookup (heapWrite h b o) a = heapLookup h a := by
  unfold heapLookup heapWrite
  rw [find?_key_write_ne a b o hne h.mem]

theorem heapWrite_nextAddr (h : Heap) (b : ℕ) (o : HObj) :
    (heapWrite h b o).nextAddr = h.nextAddr := rfl

theorem heapSetField_lookup_ne (h : Heap) (b : ℕ) (k : String) (v : HVal)
    (a : ℕ) (hne : a ≠ b) :
    heapLookup (heapSetField h b k v) a = heapLookup h a := by
  cases hl : heapLookup h b with
  | none => simp [heapSetField, hl]
  | some o =>
    by_cases hany : (o.fields.any fun p => decide (p.1 = k)) = true
    · simp only [heapSetField, hl]
      rw [if_pos hany]
      exact heapWrite_lookup_ne h b _ a hne
    · simp only [heapSetField, hl]
      rw [if_neg hany]
      exact heapWrite_lookup_ne h b _ a hne

theorem heapSetField_nextAddr (h : Heap) (b : ℕ) (k : String) (v : HVal) :
    (heapSetField h b k v).nextAddr = h.nextAddr := by
  cases hl : heapLookup h b with
  | none => simp [heapSetField, hl]
  | some o =>
    by_cases hany : (o.fields.any fun p => decide (p.1 = k)) = true
    · simp only [heapSetField, hl]
      rw [if_pos hany]
      rfl
    · simp only [heapSetField, hl]
      rw [if_neg hany]
      rfl

theorem heapLookup_lt_next (h : Heap) (hwf : HeapWF h) (a : ℕ) (o : HObj)
    (hl : heapLookup h a = some o) : a < h.nextAddr := by
  unfold heapLookup at hl
  cases hf : h.mem.find? (fun p => p.1 = a) with
  | none => rw [hf] at hl; cases hl
  | some q =>
    have hmem := List.mem_of_find?_eq_some hf
    have hkey : q.1 = a := by simpa using List.find?_some hf
    have := hwf q hmem
    omega

theorem heapLookup_alloc (h : Heap) (o : HObj) (hwf : HeapWF h) (a : ℕ) :
    heapLookup (heapAlloc h o).1 a =
      (if a = h.nextAddr then some o else heapLookup h a) := by
  have hstep : (heapAlloc h o).1.mem = h.mem ++ [(h.nextAddr, o)] := rfl
  unfold heapLookup
  rw [hstep, List.find?_append]
  by_cases ha : a = h.nextAddr
  · have hnone : h.mem.find? (fun p => decide (p.1 = a)) = none := by
      rw [List.find?_eq_none]
      intro q hq
      have := hwf q hq
      simp only [decide_eq_true_eq]
      omega
    rw [hnone]
    simp only [Option.none_orElse, List.find?_cons]
    have hd : decide ((h.nextAddr, o).1 = a) = true := by simp [ha]
    rw [hd]
    simp [ha]
  · cases hf : h.mem.find? (fun p => decide (p.1 = a)) with
    | none =>
      simp only [hf, Option.none_orElse, List.find?_cons]
      have hd : decide ((h.nextAddr, o).1 = a) = false := by
        simp only [decide_eq_false_iff_not]
        intro hh
        exact ha (by simpa using hh.symm)
      rw [hd]
      simp [ha]
    | some q =>
      simp only [hf, Option.some_orElse]
      simp [ha]

theorem heapAlloc_nextAddr (h : Heap) (o : HObj) :
    (heapAlloc h o).1.nextAddr = h.nextAddr + 1 := rfl

theorem heapAlloc_wf (h : Heap) (o : HObj) (hwf : HeapWF h) :
    HeapWF (heapAlloc h o).1 := by
  intro q hq
  unfold heapAlloc at hq
  simp only [List.mem_append, List.mem_singleton] at hq
  rcases hq with hq | hq
  · have := hwf q hq
    simp only [heapAlloc_nextAddr]
    omega
  · subst hq
    simp only [heapAlloc_nextAddr]
    omega

theorem valRefsIn_mono (lo lo' hi hi' : ℕ) (v : HVal) (hlo : lo' ≤ lo)
    (hhi : hi ≤ hi') (hv : valRefsIn lo hi v) : valRefsIn lo' hi' v := by
  cases v with
  | ref a =>
    obtain ⟨h1, h2⟩ := hv
    exact ⟨by omega, by omega⟩
  | num q => trivial
  | str s => trivial
  | boolean b => trivial
  | undefined => trivial

theorem cloneOut_refl (h : Heap) (hwf : HeapWF h) : CloneOut h h := by
  refine ⟨hwf, le_refl _, fun a _ => rfl, ?_⟩
  intro a obj hla hl p hp
  have := heapLookup_lt_next h hwf a obj hl
  omega

theorem cloneOut_trans (h h₁ h₂ : Heap) (h01 : CloneOut h h₁)
    (h12 : CloneOut h₁ h₂) : CloneOut h h₂ := by
  obtain ⟨hwf1, hle1, hag1, hfc1⟩ := h01
  obtain ⟨hwf2, hle2, hag2, hfc2⟩ := h12
  refine ⟨hwf2, le_trans hle1 hle2, ?_, ?_⟩
  · intro a halt
    rw [hag2 a (by omega), hag1 a halt]
  · intro a obj hla hl p hp
    by_cases hmid : a < h₁.nextAddr
    · have hl1 : heapLookup h₁ a = some obj := by rw [← hag2 a hmid]; exact hl
      exact valRefsIn_mono _ _ _ _ _ (le_refl _) hle2 (hfc1 a obj hla hl1 p hp)
    · exact valRefsIn_mono _ _ _ _ _ hle1 (le_refl _)
        (hfc2 a obj (by omega) hl p hp)

theorem cloneFsAux_spec_of (f : Heap → HVal → Option (Heap × HVal))
    (hV : ∀ (h : Heap) (v : HVal) (h' : Heap) (v' : HVal), HeapWF h →
      f h v = some (h', v') →
      CloneOut h h' ∧ valRefsIn h.nextAddr h'.nextAddr v') :
    ∀ (l : List (String × HVal)) (h h' : Heap) (fs : List (String × HVal)),
      HeapWF h → cloneFsAux f h l = some (h', fs) →
      CloneOut h h' ∧ ∀ p ∈ fs, valRefsIn h.nextAddr h'.nextAddr p.2 := by
  intro l
  induction l with
  | nil =>
    intro h h' fs hwf hc
    simp [cloneFsAux] at hc
    obtain ⟨rfl, rfl⟩ := hc
    exact ⟨cloneOut_refl h hwf, by simp⟩
  | cons kv rest ih =>
    intro h h' fs hwf hc
    obtain ⟨k, v⟩ := kv
    rw [cloneFsAux] at hc
    split at hc
    · cases hc
    next h₁ v' hv =>
      split at hc
      · cases hc
      next h₂ fs' hr =>
        simp only [Option.some.injEq, Prod.mk.injEq] at hc
        obtain ⟨rfl, rfl⟩ := hc
        have hv_spec := hV h v h₁ v' hwf hv
        have hr_spec := ih h₁ h₂ fs' hv_spec.1.1 hr
        refine ⟨cloneOut_trans h h₁ h₂ hv_spec.1 hr_spec.1, ?_⟩
        intro p hp
        rcases List.mem_cons.mp hp with rfl | hp'
        · exact valRefsIn_mono _ _ _ _ _ (le_refl _) hr_spec.1.2.1 hv_spec.2
        · exact valRefsIn_mono _ _ _ _ _ hv_spec.1.2.1 (le_refl _)
            (hr_spec.2 p hp')

theorem cloneV_spec :
    ∀ (fuel : ℕ) (h : Heap) (v : HVal) (h' : Heap) (v' : HVal), HeapWF h →
      cloneV fuel h v = some (h', v') →
      CloneOut h h' ∧ valRefsIn h.nextAddr h'.nextAddr v' := by
  intro fuel
  induction fuel with
  | zero =>
    intro h v h' v' hwf hc
    cases v with
    | num q =>
      simp [cloneV] at hc
      obtain ⟨rfl, rfl⟩ := hc
      exact ⟨cloneOut_refl h hwf, trivial⟩
    | str s =>
      simp [cloneV] at hc
      obtain ⟨rfl, rfl⟩ := hc
      exact ⟨cloneOut_refl h hwf, trivial⟩
    | boolean b =>
      simp [cloneV] at hc
      obtain ⟨rfl, rfl⟩ := hc
      exact ⟨cloneOut_refl h hwf, trivial⟩
    | undefined =>
      simp [cloneV] at hc
      obtain ⟨rfl, rfl⟩ := hc
      exact ⟨cloneOut_refl h hwf, trivial⟩
    | ref a => simp [cloneV] at hc
  | succ fuel ih =>
    intro h v h' v' hwf hc
    cases v with
    | num q =>
      simp [cloneV] at hc
      obtain ⟨rfl, rfl⟩ := hc
      exact ⟨cloneOut_refl h hwf, trivial⟩
    | str s =>
      simp [cloneV] at hc
      obtain ⟨rfl, rfl⟩ := hc
      exact ⟨cloneOut_refl h hwf, trivial⟩
    | boolean b =>
      simp [cloneV] at hc
      obtain ⟨rfl, rfl⟩ := hc
      exact ⟨cloneOut_refl h hwf, trivial⟩
    | undefined =>
      simp [cloneV] at hc
      obtain ⟨rfl, rfl⟩ := hc
      exact ⟨cloneOut_refl h hwf, trivial⟩
    | ref a =>
      rw [cloneV] at hc
      split at hc
      · cases hc
      next o hl =>
        split at hc
        · cases hc
        next h₁ fs hf =>
          simp only [heapAlloc, Option.some.injEq, Prod.mk.injEq] at hc
          obtain ⟨rfl, rfl⟩ := hc
          have hfs_spec := cloneFsAux_spec_of (cloneV fuel) ih o.fields h h₁ fs hwf hf
          obtain ⟨⟨hwf1, hle1, hag1, hfc1⟩, hfs⟩ := hfs_spec
          have hwf2 : HeapWF (heapAlloc h₁ ⟨fs⟩).1 := heapAlloc_wf h₁ ⟨fs⟩ hwf1
          have hlook2 := heapLookup_alloc h₁ ⟨fs⟩ hwf1
          have hnext2 : (heapAlloc h₁ ⟨fs⟩).1.nextAddr = h₁.nextAddr + 1 := rfl
          constructor
          · refine ⟨by simpa [heapAlloc] using hwf2, ?_, ?_, ?_⟩
            · simp only [heapAlloc]
              omega
            · intro b hb
              have hne : ¬(b = h₁.nextAddr) := by omega
              have := hlook2 b
              simp only [heapAlloc] at this ⊢
              rw [this, if_neg hne]
              exact hag1 b hb
            · intro b obj hb hlb p hp
              simp only [heapAlloc] at hlb ⊢
              by_cases hbe : b = h₁.nextAddr
              · have := hlook2 b
                simp only [heapAlloc] at this
                rw [this, if_pos hbe] at hlb
                obtain rfl := Option.some.inj hlb
                have := hfs p hp
                exact valRefsIn_mono _ _ _ _ _ (le_refl _) (Nat.le_succ _) this
              · have := hlook2 b
                simp only [heapAlloc] at this
                rw [this, if_neg hbe] at hlb
                have := hfc1 b obj hb hlb p hp
                exact valRefsIn_mono _ _ _ _ _ (le_refl _) (Nat.le_succ _) this
          · refine ⟨hle1, ?_⟩
            simp only [heapAlloc]
            omega

theorem heapGetField_some_val (h : Heap) (a : ℕ) (k : String) (v : HVal)
    (hg : heapGetField h a k = some v) (hv : v ≠ .undefined) :
    ∃ o p, heapLookup h a = some o ∧ p ∈ o.fields ∧ p.2 = v := by
  unfold heapGetField at hg
  split at hg
  · cases hg
  next o hl =>
    split at hg
    next p hf =>
      exact ⟨o, p, hl, List.mem_of_find?_eq_some hf, Option.some.inj hg⟩
    next hf =>
      obtain rfl := Option.some.inj hg
      exact absurd rfl hv

theorem normScenesHeap_agrees (n : ℕ) :
    ∀ (elems : List HVal) (h : Heap) (cursor : ℚ) (h₂ : Heap),
      (∀ v ∈ elems, ∀ a, v = HVal.ref a → n ≤ a) →
      normScenesHeap h cursor elems = some h₂ →
      heapAgreesBelow h h₂ n := by
  intro elems
  induction elems with
  | nil =>
    intro h cursor h₂ _ hrun
    simp [normScenesHeap] at hrun
    subst hrun
    exact fun a _ => rfl
  | cons v rest ih =>
    intro h cursor h₂ hrefs hrun
    have hrest : ∀ v' ∈ rest, ∀ a, v' = HVal.ref a → n ≤ a :=
      fun v' hv' => hrefs v' (List.mem_cons_of_mem _ hv')
    cases v with
    | num q => simp [normScenesHeap] at hrun
    | str s => simp [normScenesHeap] at hrun
    | boolean b => simp [normScenesHeap] at hrun
    | undefined => simp [normScenesHeap] at hrun
    | ref sa =>
      have hsa : n ≤ sa := hrefs _ (List.mem_cons_self _ _) sa rfl
      simp only [normScenesHeap] at hrun
      split at hrun
      · split at hrun
        · cases hrun
        · split at hrun
          · exact ih h _ h₂ hrest hrun
          · have hmid := ih (heapSetField h sa "t" (.num cursor)) _ h₂ hrest hrun
            intro b hb
            rw [hmid b hb]
            exact heapSetField_lookup_ne h sa "t" (.num cursor) b (by omega)
      · cases hrun

/-- C9: building a Schedule never mutates the caller's manifest object
graph.  `#normalizeManifest` runs on a `structuredClone` of the manifest;
on the heap model, every cell of the original graph (every address the
caller could reach) is unchanged in the result heap, and the returned
root is a fresh address — the clone and its mutations (`s.t = cursor`)
live entirely in newly allocated cells, so multiple Schedules can be
derived from one template without aliasing. -/
theorem coreNormalizeHeap_preserves (fuel : ℕ) (h : Heap) (root : ℕ)
    (h₂ : Heap) (root' : ℕ) (a : ℕ) (obj : HObj) (hwf : HeapWF h)
    (hrun : coreNormalizeHeap fuel h root = some (h₂, root'))
    (hl : heapLookup h a = some obj) :
    heapLookup h₂ a = some obj ∧ h.nextAddr ≤ root' := by
  rw [coreNormalizeHeap] at hrun
  split at hrun
  next h₁ r hclone =>
    have hcs := cloneV_spec fuel h (.ref root) h₁ (.ref r) hwf hclone
    obtain ⟨⟨hwf1, hle1, hag1, hfc1⟩, href⟩ := hcs
    obtain ⟨hrlo, hrhi⟩ := href
    split at hrun
    next arr hscenes =>
      split at hrun
      next o harr =>
        split at hrun
        next hh hnorm =>
          simp only [Option.some.injEq, Prod.mk.injEq] at hrun
          obtain ⟨rfl, rfl⟩ := hrun
          -- address of the scenes array lies in the fresh region
          obtain ⟨o₀, p₀, hlo₀, hp₀, hpv₀⟩ :=
            heapGetField_some_val h₁ r "scenes" (.ref arr) hscenes (by simp)
          have harr_fresh : h.nextAddr ≤ arr := by
            have := hfc1 r o₀ hrlo hlo₀ p₀ hp₀
            rw [hpv₀] at this
            exact this.1
          -- every scene element reference lies in the fresh region
          have helems : ∀ v ∈ arrayElems o, ∀ sa, v = HVal.ref sa →
              h.nextAddr ≤ sa := by
            intro v hv sa href
            obtain ⟨p, hp, hpv⟩ := List.mem_map.mp hv
            have := hfc1 arr o harr_fresh harr p hp
            rw [hpv, href] at this
            exact this.1
          have hagn := normScenesHeap_agrees h.nextAddr (arrayElems o) h₁ 0 hh
            helems hnorm
          have halt : a < h.nextAddr := heapLookup_lt_next h hwf a obj hl
          refine ⟨?_, hrlo⟩
          rw [hagn a halt, hag1 a halt]
          exact hl
        · cases hrun
      · cases hrun
    · cases hrun
  · cases hrun


/-- Witness for C9 at the two-scene manifest graph `c9Heap`: the original
root cell is untouched in the result heap and the new root is fresh. -/
theorem coreNormalizeHeap_preserves_witness :
    heapLookup c9Result 0 = some ⟨[("scenes", .ref 1), ("theme", .str "light")]⟩ ∧
    c9Heap.nextAddr ≤ 9 :=
  coreNormalizeHeap_preserves 10 c9Heap 0 c9Result 9 0
    ⟨[("scenes", .ref 1), ("theme", .str "light")]⟩
    (by show ∀ p ∈ c9Heap.mem, p.1 < c9Heap.nextAddr; decide)
    (by decide) (by decide)
